import Mathlib

set_option maxRecDepth 8000
set_option maxHeartbeats 2000000

namespace Geshihua

/-!
Shallow embedding of the typst-geshihua formatter core.

Rust strings are modelled as Lean strings over explicit character lists and
Rust iterator pipelines become list functions.  The syntax tree consumed by
the formatter is embedded as a node type over the node kinds that the
verified claims touch.  Helpers living in source files that are not part of
the provided sources (attr.rs, util.rs, items.rs, flow.rs, table.rs,
comment.rs, config.rs) are modelled from the specification and are marked as
such in their doc comments.
-/

/-- Whitespace test mirroring Rust `char::is_whitespace` (the Unicode
White_Space set), used by `trim_end` and `trim_start`. -/
def rustWhitespace (c : Char) : Bool :=
  let n := c.toNat
  n == 0x20 || (0x9 ≤ n && n ≤ 0xD) || n == 0x85 || n == 0xA0 || n == 0x1680 ||
    (0x2000 ≤ n && n ≤ 0x200A) || n == 0x2028 || n == 0x2029 || n == 0x202F ||
    n == 0x205F || n == 0x3000

/-- Test that `pat` occurs at the very front of the second list. -/
def charsPre : List Char → List Char → Bool
  | [], _ => true
  | _ :: _, [] => false
  | p :: ps, c :: cs => (p == c) && charsPre ps cs

/-- Substring occurrence test, mirroring Rust `str::contains` for a pattern
string (used for the `@typstyle off` sentinel). -/
def charsSub (pat : List Char) : List Char → Bool
  | [] => charsPre pat []
  | c :: cs => charsPre pat (c :: cs) || charsSub pat cs

/-- Rust `s.contains(pat)` for a string pattern. -/
def strContainsSub (s pat : String) : Bool := charsSub pat.data s.data

/-- Rust `s.contains(c)` for a character pattern. -/
def containsChar (s : String) (c : Char) : Bool := s.data.contains c

/-- Rust `s.chars().filter(|x| *x == c).count()`. -/
def countChar (s : String) (c : Char) : Nat := (s.data.filter (· == c)).length

/-- Rust `str::trim_end` on a character list. -/
def trimEndList (l : List Char) : List Char :=
  (l.reverse.dropWhile rustWhitespace).reverse

/-- Raw split at newline characters: one part more than the number of
newlines.  This is the split underlying Rust `str::lines`. -/
def splitNl : List Char → List (List Char)
  | [] => [[]]
  | c :: cs =>
    if c = '\n' then [] :: splitNl cs
    else
      match splitNl cs with
      | [] => [[c]]
      | p :: ps => (c :: p) :: ps

/-- Drop one trailing carriage return (applied by Rust `str::lines` to every
newline-terminated part). -/
def dropCr (l : List Char) : List Char :=
  if l.getLast? = some '\r' then l.dropLast else l

/-- Rust `str::lines`: every part except the last was terminated by a
newline and loses one trailing `\r`; an empty final part (from a trailing
newline, or an empty string) yields no line. -/
def rustLines (l : List Char) : List (List Char) :=
  if (splitNl l).getLastD [] = [] then (splitNl l).dropLast.map dropCr
  else (splitNl l).dropLast.map dropCr ++ [(splitNl l).getLastD []]

/-- Join lines with single newlines, mirroring `Vec::join("\n")`. -/
def joinNl : List (List Char) → List Char
  | [] => []
  | [x] => x
  | x :: xs => x ++ '\n' :: joinNl xs

/-- Character-list body of `strip_trailing_whitespace`. -/
def stwData (l : List Char) : List Char :=
  joinNl ((rustLines l).map trimEndList) ++ ['\n']

/-- Embedding of `strip_trailing_whitespace` from
crates/typstyle-core/src/lib.rs: split into lines, `trim_end` each line,
join with `"\n"`, then append one `"\n"`. -/
def strip_trailing_whitespace (s : String) : String :=
  String.mk (stwData s.data)

/-! ## The syntax tree

The externally owned typst syntax tree, restricted to the node kinds the
verified claims touch.  A node carries a kind tag, its literal token text
(empty for inner nodes) and its ordered children. -/

inductive SyntaxKind where
  | text
  | space
  | parbreak
  | linebreak
  | escape
  | ident
  | intLit
  | boolLit
  | strLit
  | noneLit
  | autoLit
  | breakKw
  | continueKw
  | codeBlock
  | code
  | contentBlock
  | funcCall
  | args
  | named
  | spread
  | dots
  | hash
  | colon
  | comma
  | semicolon
  | leftParen
  | rightParen
  | lineComment
  | blockComment
  | errorKind
  | other
deriving DecidableEq, Repr

inductive SyntaxNode where
  | mk (kind : SyntaxKind) (text : String) (children : List SyntaxNode)
deriving Repr

mutual

def SyntaxNode.decEq : (a b : SyntaxNode) → Decidable (a = b)
  | .mk k₁ t₁ cs₁, .mk k₂ t₂ cs₂ =>
    if hk : k₁ = k₂ then
      if ht : t₁ = t₂ then
        match SyntaxNode.decEqList cs₁ cs₂ with
        | isTrue hc => isTrue (by rw [hk, ht, hc])
        | isFalse hc => isFalse (by intro h; injection h; contradiction)
      else isFalse (by intro h; injection h; contradiction)
    else isFalse (by intro h; injection h; contradiction)

def SyntaxNode.decEqList : (a b : List SyntaxNode) → Decidable (a = b)
  | [], [] => isTrue rfl
  | [], _ :: _ => isFalse (fun h => List.noConfusion h)
  | _ :: _, [] => isFalse (fun h => List.noConfusion h)
  | a :: as, b :: bs =>
    match SyntaxNode.decEq a b, SyntaxNode.decEqList as bs with
    | isTrue h1, isTrue h2 => isTrue (by rw [h1, h2])
    | isFalse h1, _ => isFalse (by intro h; injection h; contradiction)
    | _, isFalse h2 => isFalse (by intro h; injection h; contradiction)

end

instance : DecidableEq SyntaxNode := SyntaxNode.decEq

def SyntaxNode.kind : SyntaxNode → SyntaxKind
  | .mk k _ _ => k

def SyntaxNode.text : SyntaxNode → String
  | .mk _ t _ => t

def SyntaxNode.children : SyntaxNode → List SyntaxNode
  | .mk _ _ cs => cs

@[simp] theorem SyntaxNode.kind_mk (k t cs) : (SyntaxNode.mk k t cs).kind = k := rfl
@[simp] theorem SyntaxNode.text_mk (k t cs) : (SyntaxNode.mk k t cs).text = t := rfl
@[simp] theorem SyntaxNode.children_mk (k t cs) :
    (SyntaxNode.mk k t cs).children = cs := rfl

theorem SyntaxNode.sizeOf_lt_of_mem {c : SyntaxNode} {n : SyntaxNode}
    (h : c ∈ n.children) : sizeOf c < sizeOf n := by
  rcases n with ⟨k, t, cs⟩
  simp only [SyntaxNode.children_mk] at h
  have := List.sizeOf_lt_of_mem h
  simp only [SyntaxNode.mk.sizeOf_spec]
  omega

/-- Full source text of a subtree, mirroring `SyntaxNode::into_text`: the
node's own token text followed by the texts of its children (inner nodes
carry empty token text). -/
def into_text : SyntaxNode → String
  | .mk _ t cs => t ++ String.join (cs.attach.map fun c => into_text c.1)
decreasing_by
  have := List.sizeOf_lt_of_mem c.2
  simp only [SyntaxNode.mk.sizeOf_spec]
  omega

/-- Mirrors `SyntaxNode::erroneous`: the node or one of its descendants is
an error node. -/
def nodeErroneous : SyntaxNode → Bool
  | .mk k _ cs =>
    k == SyntaxKind.errorKind || cs.attach.any fun c => nodeErroneous c.1
decreasing_by
  have := List.sizeOf_lt_of_mem c.2
  simp only [SyntaxNode.mk.sizeOf_spec]
  omega

/-- Comment kinds, mirroring the `LineComment`/`BlockComment` checks. -/
def isCommentKind (k : SyntaxKind) : Bool :=
  k == SyntaxKind.lineComment || k == SyntaxKind.blockComment

theorem SyntaxNode.sizeOf_children_lt (n : SyntaxNode) :
    sizeOf n.children < sizeOf n := by
  rcases n with ⟨k, t, cs⟩
  simp only [SyntaxNode.children_mk, SyntaxNode.mk.sizeOf_spec]
  omega

/-! ## The attribute pass of src/prop.rs -/

/-- The disable sentinel checked by the attribute pass. -/
def disableSentinel : String := "@typstyle off"

/-- Insertion into the `HashSet<SyntaxNode>` of marked nodes, modelled as a
duplicate-free list where only membership matters. -/
def insertNode (n : SyntaxNode) (m : List SyntaxNode) : List SyntaxNode :=
  if n ∈ m then m else n :: m

/-- Embedding of `is_2d_arg` from src/prop.rs: an argument list one of whose
children is a semicolon. -/
def is_2d_arg (argNode : SyntaxNode) : Bool :=
  argNode.children.any fun c => c.kind == SyntaxKind.semicolon

/-- The guard of shape
`node.kind() != ContentBlock || node.kind() != CodeBlock || node.kind() != Code`
from src/prop.rs lines 25–28, which decides whether the parent of a comment
child is inserted into the disabled set. -/
def parentMarkCond (k : SyntaxKind) : Bool :=
  k != SyntaxKind.contentBlock || k != SyntaxKind.codeBlock || k != SyntaxKind.code

mutual

/-- Embedding of `get_no_format_nodes_impl` from src/prop.rs: memoised
entry point of the disabled-region detection. -/
def get_no_format_nodes_impl (node : SyntaxNode) (map : List SyntaxNode) :
    List SyntaxNode :=
  if node ∈ map then map
  else noFormatChildren node node.children false map
termination_by (sizeOf node, 1)
decreasing_by
  exact Prod.Lex.left _ _ (SyntaxNode.sizeOf_children_lt node)

/-- The child loop of `get_no_format_nodes_impl`, with the `no_format` flag
threaded explicitly through the iteration. -/
def noFormatChildren (parent : SyntaxNode) :
    List SyntaxNode → Bool → List SyntaxNode → List SyntaxNode
  | [], _, map => map
  | child :: rest, noFormat, map =>
    if isCommentKind child.kind then
      let hasMarker := strContainsSub child.text disableSentinel
      let noFormat₁ := if hasMarker then true else noFormat
      let map₁ := if hasMarker then insertNode child map else map
      let map₂ := if parentMarkCond parent.kind then insertNode parent map₁ else map₁
      noFormatChildren parent rest noFormat₁ map₂
    else if child.kind == SyntaxKind.args && is_2d_arg child then
      noFormatChildren parent rest noFormat (insertNode child map)
    else if child.children.isEmpty then
      noFormatChildren parent rest noFormat map
    else if noFormat then
      noFormatChildren parent rest false (insertNode child map)
    else
      noFormatChildren parent rest noFormat (get_no_format_nodes_impl child map)
termination_by cs _ _ => (sizeOf cs, 0)
decreasing_by
  all_goals exact Prod.Lex.left _ _ (by first | (simp only [List.cons.sizeOf_spec]; omega) | omega)

end

/-- Embedding of `get_no_format_nodes` from src/prop.rs. -/
def get_no_format_nodes (root : SyntaxNode) : List SyntaxNode :=
  get_no_format_nodes_impl root []

/-! ## The document algebra

The Wadler-style document values produced by the converter.  `line` is the
soft line of `arena.line()` (a space when flat), `lineU` the `arena.line_()`
variant (nothing when flat), `hardline` a forced break.  `arena.space()` of
the pretty crate is `text " "`. -/

inductive Doc where
  | nil
  | text (s : String)
  | line
  | lineU
  | hardline
  | concat (a b : Doc)
  | nest (n : Nat) (d : Doc)
  | group (d : Doc)
deriving DecidableEq, Repr

instance : Append Doc := ⟨Doc.concat⟩

@[simp] theorem Doc.append_def (a b : Doc) : a ++ b = Doc.concat a b := rfl

/-- `DocExt::repeat_n`: concatenate `n` copies of a document. -/
def Doc.repeatN (d : Doc) : Nat → Doc
  | 0 => Doc.nil
  | n + 1 => Doc.repeatN d n ++ d

/-- Join a list of documents with a separator document. -/
def joinDocs (sep : Doc) : List Doc → Doc
  | [] => Doc.nil
  | [d] => d
  | d :: ds => d ++ (sep ++ joinDocs sep ds)

/-- Concatenate a list of documents. -/
def concatDocs : List Doc → Doc
  | [] => Doc.nil
  | d :: ds => d ++ concatDocs ds

/-- Number of hard line breaks syntactically present in a document. -/
def countHardlines : Doc → Nat
  | .nil | .text _ | .line | .lineU => 0
  | .hardline => 1
  | .concat a b => countHardlines a + countHardlines b
  | .nest _ d => countHardlines d
  | .group d => countHardlines d

/-- Number of breaking opportunities (soft or hard) in a document. -/
def breakCount : Doc → Nat
  | .nil | .text _ => 0
  | .line | .lineU | .hardline => 1
  | .concat a b => breakCount a + breakCount b
  | .nest _ d => breakCount d
  | .group d => breakCount d

/-- Whether the top-level constructor of a document is a `Group`. -/
def isDocGroup : Doc → Bool
  | .group _ => true
  | _ => false

/-! ## Printer configuration and attributes

`config.rs` and `attr.rs` are not among the provided sources, so the
configuration record and the per-node attribute store are modelled from the
specification (§4.1, §6): the store answers the three per-node boolean
classifications, here as arbitrary boolean functions supplied to the
converter. -/

/-- Modelled from the spec: the printer configuration of config.rs, carrying
the maximum output width and the blank-line bound (§6 Configuration). -/
structure Config where
  max_width : Nat
  blank_lines_upper_bound : Nat
deriving Repr

/-- Modelled from the spec: the Attribute Store interface of attr.rs (§4.1),
precomputed per-node boolean classifications consumed read-only. -/
structure Attrs where
  is_multiline : SyntaxNode → Bool
  multiline_flavor : SyntaxNode → Bool
  format_disabled : SyntaxNode → Bool
  unformattable : SyntaxNode → Bool

/-- The fold style of a comma-separated list (src/pretty/style.rs). -/
inductive FoldStyle where
  | fit
  | never
deriving DecidableEq, Repr

/-- Embedding of `get_fold_style_untyped` from src/pretty/mod.rs lines
58–64: `Never` exactly when the attribute store reports the node as
multiline. -/
def get_fold_style_untyped (attrs : Attrs) (node : SyntaxNode) : FoldStyle :=
  if attrs.is_multiline node then FoldStyle.never else FoldStyle.fit

/-! ## Leaf conversions of src/pretty/mod.rs -/

/-- The strip modes of `to_doc` (src/pretty/mod.rs lines 715–720). -/
inductive StripMode where
  | noneStrip
  | prefixStrip
  | prefixOnBoundaryMarkers
deriving DecidableEq, Repr

/-- Embedding of `to_doc` from src/pretty/mod.rs lines 730–760: split a
text into lines joined by hard line breaks, optionally trimming leading
whitespace, and re-append a trailing hard break when the text ended in a
newline. -/
def to_doc (s : String) (strip : StripMode) : Doc :=
  let ls := rustLines s.data
  let len := ls.length
  let lineDocs := ls.enum.map fun p =>
    let shouldTrim := strip == StripMode.prefixStrip ||
      (strip == StripMode.prefixOnBoundaryMarkers && (p.1 == 0 || p.1 == len - 1))
    Doc.text (String.mk (if shouldTrim then p.2.dropWhile rustWhitespace else p.2))
  let base := joinDocs Doc.hardline lineDocs
  if s.data.getLast? = some '\n' then base ++ Doc.hardline else base

/-- Embedding of `trivia` from src/pretty/mod.rs: the node's token text with
no stripping. -/
def trivia (n : SyntaxNode) : Doc := to_doc n.text StripMode.noneStrip

/-- Embedding of `convert_space` from src/pretty/mod.rs lines 247–254: one
hard line break when the space text contains a newline, otherwise one
space. -/
def convert_space (node : SyntaxNode) : Doc :=
  if containsChar node.text '\n' then Doc.hardline else Doc.text " "

/-- Embedding of `convert_parbreak` from src/pretty/mod.rs lines 260–268:
one hard line break per newline character of the paragraph break's text,
with no clamping. -/
def convert_parbreak (node : SyntaxNode) : Doc :=
  Doc.repeatN Doc.hardline (countChar node.text '\n')

/-- Modelled from the spec: `convert_comment` of comment.rs is not among
the provided sources; comments are preserved verbatim, so the comment text
is emitted as-is. -/
def convert_comment (n : SyntaxNode) : Doc := to_doc n.text StripMode.noneStrip

/-- Modelled from the spec: `comma_seprated_items` of util.rs is not among
the provided sources.  Per §4.4, `Fit` attempts one line inside a group
while `Never` forces one item per line with a trailing separator; the
trailing separator of the broken `Fit` layout is abstracted away. -/
def comma_seprated_items (items : List Doc) (style : FoldStyle) : Doc :=
  match style with
  | .never =>
    Doc.text "(" ++
      Doc.nest 2 (Doc.hardline ++ joinDocs (Doc.text "," ++ Doc.hardline) items ++ Doc.text ",") ++
      Doc.hardline ++ Doc.text ")"
  | .fit =>
    Doc.group (Doc.text "(" ++
      Doc.nest 2 (Doc.lineU ++ joinDocs (Doc.text "," ++ Doc.line) items) ++
      Doc.lineU ++ Doc.text ")")

/-- Modelled from the spec: `pretty_items` of items.rs is not among the
provided sources.  Per §4.4, `Never` places one item per line between the
enclosing delimiters, `Fit` attempts a one-line layout inside a group with
the flat separator. -/
def pretty_items (items : List Doc) (flatSep : Doc) (enclosing : Doc × Doc)
    (style : FoldStyle) : Doc :=
  match style with
  | .never =>
    enclosing.1 ++ Doc.nest 2 (Doc.hardline ++ joinDocs Doc.hardline items) ++
      Doc.hardline ++ enclosing.2
  | .fit =>
    Doc.group (enclosing.1 ++ Doc.text " " ++ joinDocs flatSep items ++
      Doc.text " " ++ enclosing.2)

/-! ## The embedded expression grammar

The converter is embedded over a representative subset of the typst
expression grammar: the leaf expressions, code blocks and function calls
with parenthesized arguments.  Markup bodies, content blocks, math and
field-access chains are outside the subset; no verified claim depends on
their conversion rules. -/

/-- The expression kinds of the embedded grammar subset.  `Space` is
deliberately absent: the plain `Expr` cast fails on space nodes (the
space-aware cast is a separate accessor), which keeps the dedicated space
branches of `convert_code` and the argument casting space-free. -/
def isExprKind (k : SyntaxKind) : Bool :=
  k == SyntaxKind.text || k == SyntaxKind.parbreak ||
  k == SyntaxKind.linebreak || k == SyntaxKind.escape || k == SyntaxKind.ident ||
  k == SyntaxKind.intLit || k == SyntaxKind.boolLit || k == SyntaxKind.strLit ||
  k == SyntaxKind.noneLit || k == SyntaxKind.autoLit || k == SyntaxKind.breakKw ||
  k == SyntaxKind.continueKw || k == SyntaxKind.codeBlock || k == SyntaxKind.funcCall

/-- Rust `node.cast::<Expr>()` succeeds (never on a space node). -/
def isExprNode (n : SyntaxNode) : Bool := isExprKind n.kind

/-- Rust `node.cast::<Arg>()` succeeds: a named argument, a spread, or a
positional expression. -/
def isArgNode (n : SyntaxNode) : Bool :=
  n.kind == SyntaxKind.named || n.kind == SyntaxKind.spread || isExprNode n

/-- The default expression used by `unwrap_or_default` on typed accessors
(`Expr::default()` is the `none` literal). -/
def nodeNone : SyntaxNode := SyntaxNode.mk SyntaxKind.noneLit "none" []

/-- Modelled from the spec: `get_parenthesized_args` of util.rs is not
among the provided sources; it yields the arguments appearing before the
closing parenthesis. -/
def parenArgsOf (argsN : SyntaxNode) : List SyntaxNode :=
  (argsN.children.takeWhile fun c => c.kind != SyntaxKind.rightParen).filter isArgNode

/-- Modelled from the spec: `get_parenthesized_args_untyped` of util.rs is
not among the provided sources; it yields every token between the
parentheses (arguments, commas, spaces and comments). -/
def parenItemsOf (argsN : SyntaxNode) : List SyntaxNode :=
  (argsN.children.takeWhile fun c => c.kind != SyntaxKind.rightParen).filter
    fun c => c.kind != SyntaxKind.leftParen

/-- Modelled from the spec: `has_parenthesized_args` of util.rs is not
among the provided sources; the argument node carries a parenthesized
list. -/
def has_parenthesized_args (argsN : SyntaxNode) : Bool :=
  argsN.children.any fun c => c.kind == SyntaxKind.leftParen

/-- The first loop of `convert_parenthesized_args_impl`
(src/pretty/func_call.rs lines 99–108): walk the children before the right
parenthesis and stop at the first space, recording whether it contains a
newline. -/
def firstSpaceMultiline (argsN : SyntaxNode) : Bool :=
  match (argsN.children.takeWhile fun c => c.kind != SyntaxKind.rightParen).find?
      (fun c => c.kind == SyntaxKind.space) with
  | some sp => containsChar sp.text '\n'
  | none => false

/-- The value expression of an argument: `Named::expr` is the last
expression child, `Spread::expr` the first, a positional argument is its
own value. -/
def argValueOf (a : SyntaxNode) : SyntaxNode :=
  if a.kind == SyntaxKind.named then (a.children.filter isExprNode).getLastD nodeNone
  else if a.kind == SyntaxKind.spread then (a.children.filter isExprNode).headD nodeNone
  else a

/-- The callee of a function call: its first expression child. -/
def funcCallCalleeQ (n : SyntaxNode) : Option SyntaxNode :=
  n.children.find? isExprNode

/-- The argument node of a function call: its `Args` child. -/
def funcCallArgsQ (n : SyntaxNode) : Option SyntaxNode :=
  n.children.find? fun c => c.kind == SyntaxKind.args

/-- Decimal reading of an integer literal's text. -/
def parseNatDigits (s : String) : Nat :=
  s.data.foldl (fun acc c => if c.isDigit then acc * 10 + (c.toNat - 48) else acc) 0

/-- Modelled from the spec: `is_table` of table.rs is not among the
provided sources; a call is a table candidate when the callee name matches
a small fixed set of table constructors (§4.5). -/
def is_table (n : SyntaxNode) : Bool :=
  match funcCallCalleeQ n with
  | some c => into_text c == "table" || into_text c == "grid"
  | none => false

/-- Modelled from the spec: `is_formatable_table` of table.rs is not among
the provided sources; a column count is determined from an explicit
`columns` argument with an integer value (§4.5). -/
def is_formatable_table (n : SyntaxNode) : Option Nat :=
  match funcCallArgsQ n with
  | none => none
  | some argsN =>
    match (parenArgsOf argsN).find? (fun a =>
        a.kind == SyntaxKind.named && (a.children.headD nodeNone).text == "columns") with
    | some a =>
      if (argValueOf a).kind == SyntaxKind.intLit then
        some (parseNatDigits (argValueOf a).text)
      else none
    | none => none

/-- Modelled from the spec: the flow-item assembly of flow.rs is not among
the provided sources.  Each item carries its content and leading/trailing
spacing flags (§4.3); adjacent spacing requests merge into a single
space. -/
def flowAssembleGo : List (Option (Bool × Doc × Bool)) → Bool → Bool → Doc → Doc
  | [], _, _, acc => acc
  | none :: rest, started, prevAfter, acc => flowAssembleGo rest started prevAfter acc
  | some (_, d, a) :: rest, false, _, _ => flowAssembleGo rest true a d
  | some (b, d, a) :: rest, true, prevAfter, acc =>
    flowAssembleGo rest true a
      (acc ++ (if prevAfter || b then Doc.text " " else Doc.nil) ++ d)

/-- Modelled from the spec: entry point of the flow-item assembly. -/
def flowAssemble (items : List (Option (Bool × Doc × Bool))) : Doc :=
  flowAssembleGo items false false Doc.nil

/-- The child collection loop of `convert_code_block` (src/pretty/mod.rs
lines 402–413): splice the children of the inner `Code` node and keep
spaces and comments. -/
def collectCode : List SyntaxNode → List SyntaxNode
  | [] => []
  | c :: rest =>
    if c.kind == SyntaxKind.code then c.children ++ collectCode rest
    else if c.kind == SyntaxKind.space || isCommentKind c.kind then c :: collectCode rest
    else collectCode rest

/-- The trailing-space stripping loop of `convert_code` (src/pretty/mod.rs
lines 434–437). -/
def stripTrailSpaces : List SyntaxNode → List SyntaxNode
  | [] => []
  | n :: rest =>
    let r := stripTrailSpaces rest
    if r.isEmpty && n.kind == SyntaxKind.space then [] else n :: r

theorem sizeOf_kind (k : SyntaxKind) : sizeOf k = 1 := by cases k <;> rfl

theorem sizeOf_append_nodes (xs ys : List SyntaxNode) :
    sizeOf (xs ++ ys) + 1 = sizeOf xs + sizeOf ys := by
  induction xs with
  | nil => simp only [List.nil_append, List.nil.sizeOf_spec]; omega
  | cons a l ih => simp only [List.cons_append, List.cons.sizeOf_spec]; omega

theorem sizeOf_children_le (n : SyntaxNode) : sizeOf n.children + 2 ≤ sizeOf n := by
  rcases n with ⟨k, t, cs⟩
  rcases t with ⟨data⟩
  simp only [SyntaxNode.children_mk, SyntaxNode.mk.sizeOf_spec, sizeOf_kind,
    String.mk.sizeOf_spec]
  have : 0 ≤ sizeOf data := Nat.zero_le _
  omega

theorem sizeOf_collectCode_le (l : List SyntaxNode) :
    sizeOf (collectCode l) ≤ sizeOf l := by
  induction l with
  | nil => simp [collectCode]
  | cons c rest ih =>
    simp only [collectCode]
    split
    · have h1 := sizeOf_append_nodes c.children (collectCode rest)
      have h2 := sizeOf_children_le c
      simp only [List.cons.sizeOf_spec]
      omega
    · split
      · simp only [List.cons.sizeOf_spec]
        omega
      · simp only [List.cons.sizeOf_spec]
        omega

theorem sizeOf_stripTrailSpaces_le (l : List SyntaxNode) :
    sizeOf (stripTrailSpaces l) ≤ sizeOf l := by
  induction l with
  | nil => simp [stripTrailSpaces]
  | cons n rest ih =>
    simp only [stripTrailSpaces]
    split
    · simp only [List.nil.sizeOf_spec, List.cons.sizeOf_spec]
      have : 0 ≤ sizeOf n := Nat.zero_le _
      omega
    · simp only [List.cons.sizeOf_spec]
      omega

theorem sizeOf_lt_of_mem_parenArgsOf {a argsN : SyntaxNode}
    (h : a ∈ parenArgsOf argsN) : sizeOf a < sizeOf argsN := by
  apply SyntaxNode.sizeOf_lt_of_mem
  have h1 := List.mem_of_mem_filter h
  exact (List.takeWhile_prefix _).sublist.subset h1

theorem sizeOf_lt_of_mem_parenItemsOf {a argsN : SyntaxNode}
    (h : a ∈ parenItemsOf argsN) : sizeOf a < sizeOf argsN := by
  apply SyntaxNode.sizeOf_lt_of_mem
  have h1 := List.mem_of_mem_filter h
  exact (List.takeWhile_prefix _).sublist.subset h1

theorem sizeOf_lt_of_mem_additional {a argsN : SyntaxNode} {p : SyntaxNode → Bool}
    (h : a ∈ (argsN.children.dropWhile p).filter isArgNode) :
    sizeOf a < sizeOf argsN := by
  apply SyntaxNode.sizeOf_lt_of_mem
  have h1 := List.mem_of_mem_filter h
  exact (List.dropWhile_suffix _).sublist.subset h1

/-! ## The recursive converter

Embeddings of `convert_expr` (src/pretty/mod.rs lines 168–233), the
function-call conversions of src/pretty/func_call.rs, the code-block
conversions of src/pretty/mod.rs lines 400–469, and the flow conversions of
src/pretty/code_flow.rs.  The mode stack is omitted: it only influences
math and field-access conversions, which lie outside the embedded
subset. -/

mutual

/-- Embedding of `convert_expr` from src/pretty/mod.rs lines 168–233: a
format-disabled expression is emitted as its verbatim source text; any
other expression is converted by the rule of its kind and the result is
wrapped in a `Group`. -/
def convert_expr (cfg : Config) (attrs : Attrs) (n : SyntaxNode) : Doc :=
  if attrs.format_disabled n then Doc.text (into_text n)
  else
    Doc.group
      (match n.kind with
        | SyntaxKind.text => trivia n
        | SyntaxKind.space => convert_space n
        | SyntaxKind.linebreak => trivia n
        | SyntaxKind.parbreak => convert_parbreak n
        | SyntaxKind.escape => trivia n
        | SyntaxKind.ident => Doc.text n.text
        | SyntaxKind.noneLit => Doc.text "none"
        | SyntaxKind.autoLit => Doc.text "auto"
        | SyntaxKind.boolLit => trivia n
        | SyntaxKind.intLit => trivia n
        | SyntaxKind.strLit =>
          if containsChar n.text '\n' then Doc.text n.text else trivia n
        | SyntaxKind.codeBlock => convert_code_block cfg attrs n
        | SyntaxKind.funcCall => convert_func_call cfg attrs n
        | SyntaxKind.breakKw => Doc.text "break"
        | SyntaxKind.continueKw => Doc.text "continue"
        | _ => Doc.text (into_text n))
termination_by (sizeOf n, 3)
decreasing_by
  all_goals simp_wf
  all_goals exact Prod.Lex.right _ (by omega)

/-- Embedding of `convert_func_call` from src/pretty/func_call.rs lines
26–42: convert the callee, fall back to verbatim text when the argument
node is format-disabled, dispatch table candidates, and append additional
arguments. -/
def convert_func_call (cfg : Config) (attrs : Attrs) (n : SyntaxNode) : Doc :=
  match h₁ : funcCallCalleeQ n, h₂ : funcCallArgsQ n with
  | some callee, some argsN =>
    let doc := Doc.nil ++ convert_expr cfg attrs callee
    if attrs.format_disabled argsN then doc ++ Doc.text (into_text argsN)
    else
      let hasParen := has_parenthesized_args argsN
      let doc₁ :=
        if is_table n then
          match is_formatable_table n with
          | some _cols => doc ++ convert_table cfg attrs argsN
          | none =>
            if hasParen then doc ++ convert_parenthesized_args_as_is cfg attrs argsN
            else doc
        else if hasParen then doc ++ convert_parenthesized_args cfg attrs argsN
        else doc
      doc₁ ++ convert_additional_args cfg attrs argsN hasParen
  | _, _ => Doc.text (into_text n)
termination_by (sizeOf n, 2)
decreasing_by
  all_goals simp_wf
  all_goals
    first
    | exact Prod.Lex.left _ _ (SyntaxNode.sizeOf_lt_of_mem (List.mem_of_find?_eq_some h₁))
    | exact Prod.Lex.left _ _ (SyntaxNode.sizeOf_lt_of_mem (List.mem_of_find?_eq_some h₂))

/-- Embedding of `convert_parenthesized_args` from src/pretty/func_call.rs
lines 44–61: the tighter layout when preferred, otherwise the
comma-separated layout under the derived fold style. -/
def convert_parenthesized_args (cfg : Config) (attrs : Attrs) (argsN : SyntaxNode) :
    Doc :=
  let t := convert_parenthesized_args_impl cfg attrs argsN
  if t.2.1 then Doc.text "(" ++ t.1.headD Doc.nil ++ Doc.text ")"
  else comma_seprated_items t.1 (if t.2.2 then FoldStyle.never else FoldStyle.fit)
termination_by (sizeOf argsN, 2)
decreasing_by
  simp_wf
  exact Prod.Lex.right _ (by omega)

/-- Embedding of `convert_parenthesized_args_impl` from
src/pretty/func_call.rs lines 93–134: returns the converted argument
documents, the prefer-tighter flag and the is-multiline flag. -/
def convert_parenthesized_args_impl (cfg : Config) (attrs : Attrs)
    (argsN : SyntaxNode) : List Doc × Bool × Bool :=
  let pargs := parenArgsOf argsN
  let is_multiline :=
    pargs.foldl (fun b a => b || attrs.multiline_flavor a) (firstSpaceMultiline argsN)
  let argDocs := pargs.attach.map fun a => convert_arg cfg attrs a.1
  let prefer_tighter := argDocs.isEmpty ||
    (argDocs.length == 1 &&
      !((argValueOf (pargs.getLastD nodeNone)).kind == SyntaxKind.funcCall))
  (argDocs, prefer_tighter, is_multiline)
termination_by (sizeOf argsN, 1)
decreasing_by
  simp_wf
  exact Prod.Lex.left _ _ (sizeOf_lt_of_mem_parenArgsOf a.2)

/-- Embedding of `convert_parenthesized_args_as_is` from
src/pretty/func_call.rs lines 63–91: replay commas, spaces, newline runs
and comments verbatim while converting each argument. -/
def convert_parenthesized_args_as_is (cfg : Config) (attrs : Attrs)
    (argsN : SyntaxNode) : Doc :=
  let inner := concatDocs ((parenItemsOf argsN).attach.map fun c =>
    if c.1.kind == SyntaxKind.comma then Doc.text ","
    else if c.1.kind == SyntaxKind.space then
      (let cnt := countChar c.1.text '\n'
       if cnt > 0 then Doc.repeatN Doc.hardline cnt else Doc.text " ")
    else if isCommentKind c.1.kind then trivia c.1
    else convert_arg cfg attrs c.1)
  Doc.text "(" ++ Doc.nest 2 inner ++ Doc.text ")"
termination_by (sizeOf argsN, 1)
decreasing_by
  simp_wf
  exact Prod.Lex.left _ _ (sizeOf_lt_of_mem_parenItemsOf c.2)

/-- Embedding of `convert_additional_args` from src/pretty/func_call.rs
lines 136–149: the arguments after the right parenthesis (or from the
first content block when there is none), concatenated and grouped. -/
def convert_additional_args (cfg : Config) (attrs : Attrs) (argsN : SyntaxNode)
    (hasParen : Bool) : Doc :=
  let nodes := (argsN.children.dropWhile fun c =>
      if hasParen then c.kind != SyntaxKind.rightParen
      else c.kind != SyntaxKind.contentBlock).filter isArgNode
  Doc.group (concatDocs (nodes.attach.map fun a => convert_arg cfg attrs a.1))
termination_by (sizeOf argsN, 1)
decreasing_by
  simp_wf
  exact Prod.Lex.left _ _ (sizeOf_lt_of_mem_additional a.2)

/-- Modelled from the spec: `convert_table` of table.rs is not among the
provided sources.  Cells are grouped into rows and rendered one row per
line (§4.5); the per-column alignment padding is abstracted away. -/
def convert_table (cfg : Config) (attrs : Attrs) (argsN : SyntaxNode) : Doc :=
  Doc.text "(" ++
    Doc.nest 2 (Doc.hardline ++
      joinDocs Doc.hardline ((parenArgsOf argsN).attach.map fun a =>
        convert_arg cfg attrs a.1 ++ Doc.text ",")) ++
    Doc.hardline ++ Doc.text ")"
termination_by (sizeOf argsN, 1)
decreasing_by
  simp_wf
  exact Prod.Lex.left _ _ (sizeOf_lt_of_mem_parenArgsOf a.2)

/-- Embedding of `convert_arg` from src/pretty/func_call.rs lines 151–157. -/
def convert_arg (cfg : Config) (attrs : Attrs) (a : SyntaxNode) : Doc :=
  if a.kind == SyntaxKind.named then convert_named cfg attrs a
  else if a.kind == SyntaxKind.spread then convert_spread cfg attrs a
  else convert_expr cfg attrs a
termination_by (sizeOf a, 4)
decreasing_by
  all_goals simp_wf
  all_goals exact Prod.Lex.right _ (by omega)

/-- Embedding of `convert_named` from src/pretty/code_flow.rs lines 7–25:
tight colon, spaced-tight hash, and expressions whose leading space is
conditional on a name having been seen. -/
def convert_named (cfg : Config) (attrs : Attrs) (n : SyntaxNode) : Doc :=
  flowAssemble (namedFlowItems cfg attrs n.children false)
termination_by (sizeOf n, 0)
decreasing_by
  simp_wf
  exact Prod.Lex.left _ _ (SyntaxNode.sizeOf_children_lt n)

/-- The per-child classifier of `convert_named`, with the `seen_name` flag
threaded explicitly. -/
def namedFlowItems (cfg : Config) (attrs : Attrs) :
    List SyntaxNode → Bool → List (Option (Bool × Doc × Bool))
  | [], _ => []
  | c :: rest, seenName =>
    if c.kind == SyntaxKind.colon then
      some (false, Doc.text ":", true) :: namedFlowItems cfg attrs rest seenName
    else if c.kind == SyntaxKind.hash then
      some (true, Doc.text "#", false) :: namedFlowItems cfg attrs rest seenName
    else if isExprNode c then
      some (seenName, convert_expr cfg attrs c, true) :: namedFlowItems cfg attrs rest true
    else none :: namedFlowItems cfg attrs rest seenName
termination_by cs _ => (sizeOf cs, 0)
decreasing_by
  all_goals simp_wf
  all_goals exact Prod.Lex.left _ _ (by first | (simp only [List.cons.sizeOf_spec]; omega) | omega)

/-- Embedding of `convert_spread` from src/pretty/code_flow.rs lines 41–52. -/
def convert_spread (cfg : Config) (attrs : Attrs) (n : SyntaxNode) : Doc :=
  flowAssemble (spreadFlowItems cfg attrs n.children)
termination_by (sizeOf n, 0)
decreasing_by
  simp_wf
  exact Prod.Lex.left _ _ (SyntaxNode.sizeOf_children_lt n)

/-- The per-child classifier of `convert_spread`. -/
def spreadFlowItems (cfg : Config) (attrs : Attrs) :
    List SyntaxNode → List (Option (Bool × Doc × Bool))
  | [] => []
  | c :: rest =>
    if c.kind == SyntaxKind.dots then
      some (true, Doc.text "..", false) :: spreadFlowItems cfg attrs rest
    else if isExprNode c then
      some (false, convert_expr cfg attrs c, true) :: spreadFlowItems cfg attrs rest
    else none :: spreadFlowItems cfg attrs rest
termination_by cs => (sizeOf cs, 0)
decreasing_by
  all_goals simp_wf
  all_goals exact Prod.Lex.left _ _ (by first | (simp only [List.cons.sizeOf_spec]; omega) | omega)

/-- Embedding of `convert_code_block` from src/pretty/mod.rs lines 400–429:
collect the code children, convert them, and lay them out between braces
with the code block's fold style (forced `Never` with multiple items or a
comment). -/
def convert_code_block (cfg : Config) (attrs : Attrs) (n : SyntaxNode) : Doc :=
  let code_nodes := collectCode n.children
  let has_comment := n.children.any fun c => isCommentKind c.kind
  let codes := convert_code cfg attrs code_nodes
  pretty_items codes (Doc.text ";" ++ Doc.text " ") (Doc.text "\x7b", Doc.text "\x7d")
    (if codes.length == 1 && !has_comment then get_fold_style_untyped attrs n
     else FoldStyle.never)
termination_by (sizeOf n, 2)
decreasing_by
  simp_wf
  exact Prod.Lex.left _ _
    (Nat.lt_of_le_of_lt (sizeOf_collectCode_le n.children) (SyntaxNode.sizeOf_children_lt n))

/-- Embedding of `convert_code` from src/pretty/mod.rs lines 431–469: strip
trailing space nodes, then run the conversion loop. -/
def convert_code (cfg : Config) (attrs : Attrs) (nodes : List SyntaxNode) :
    List Doc :=
  convertCodeLoop cfg attrs (stripTrailSpaces nodes) [] false
termination_by (sizeOf nodes, 1)
decreasing_by
  simp_wf
  rcases Nat.lt_or_eq_of_le (sizeOf_stripTrailSpaces_le nodes) with h | h
  · exact Prod.Lex.left _ _ h
  · rw [h]
    exact Prod.Lex.right _ (by omega)

/-- The conversion loop of `convert_code` (src/pretty/mod.rs lines 440–466):
expressions are converted, comments attach to the preceding expression when
permitted, and a space run containing newlines emits at most
`blank_lines_upper_bound` blank items. -/
def convertCodeLoop (cfg : Config) (attrs : Attrs) :
    List SyntaxNode → List Doc → Bool → List Doc
  | [], codes, _ => codes
  | n :: rest, codes, canAttach =>
    if isExprNode n then
      convertCodeLoop cfg attrs rest (codes ++ [convert_expr cfg attrs n]) true
    else if isCommentKind n.kind then
      let codes' :=
        if canAttach then
          match codes.getLast? with
          | some last => codes.dropLast ++ [last ++ Doc.text " " ++ convert_comment n]
          | none => codes ++ [convert_comment n]
        else codes ++ [convert_comment n]
      convertCodeLoop cfg attrs rest codes' false
    else if n.kind == SyntaxKind.space then
      let cnt := countChar n.text '\n'
      if cnt > 0 then
        let codes' :=
          if codes.isEmpty then codes
          else codes ++ List.replicate (min (cnt - 1) cfg.blank_lines_upper_bound) Doc.nil
        convertCodeLoop cfg attrs rest codes' false
      else convertCodeLoop cfg attrs rest codes canAttach
    else convertCodeLoop cfg attrs rest codes canAttach
termination_by cs _ _ => (sizeOf cs, 0)
decreasing_by
  all_goals simp_wf
  all_goals exact Prod.Lex.left _ _ (by first | (simp only [List.cons.sizeOf_spec]; omega) | omega)

end

/-! ## The public API of crates/typstyle-core/src/lib.rs -/

/-- The error enumeration of crates/typstyle-core/src/lib.rs. -/
inductive FormatError where
  | syntaxError
deriving DecidableEq, Repr

/-- A parsed source: the externally produced syntax tree together with the
original text (`typst_syntax::Source`). -/
structure Source where
  root : SyntaxNode
  srcText : String

/-- Embedding of `format_source` from crates/typstyle-core/src/lib.rs lines
43–55.  The syntax-error check happens first; only afterwards are the
attribute store, the printer, the markup conversion and the external
width-aware renderer run.  That downstream pipeline (whose rendering step
is external to the repository) is abstracted as the `pipeline` parameter
from the tree and the configured width to the rendered text, and
`strip_trailing_whitespace` is applied to its output. -/
def format_source (pipeline : SyntaxNode → Nat → String) (cfg : Config)
    (src : Source) : Except FormatError String :=
  if nodeErroneous src.root then Except.error FormatError.syntaxError
  else Except.ok (strip_trailing_whitespace (pipeline src.root cfg.max_width))

/-- Embedding of `format_content` from crates/typstyle-core/src/lib.rs
lines 37–40: parse the content into a detached source (the parser is
external, passed as `parse`) and format it. -/
def format_content (pipeline : SyntaxNode → Nat → String) (cfg : Config)
    (parse : String → SyntaxNode) (content : String) : Except FormatError String :=
  format_source pipeline cfg ⟨parse content, content⟩

/-- Modelled from the spec: `Config::new()` of config.rs is not among the
provided sources; the default configuration record. -/
def configNew : Config := ⟨80, 2⟩

/-- Embedding of `format_with_width` from crates/typstyle-core/src/lib.rs
lines 61–66: format with the given width and return the original string on
a syntax error. -/
def format_with_width (pipeline : SyntaxNode → Nat → String)
    (parse : String → SyntaxNode) (content : String) (width : Nat) : String :=
  match format_content pipeline ⟨width, configNew.blank_lines_upper_bound⟩ parse content with
  | Except.ok r => r
  | Except.error _ => content

/-! ## Claim-side definitions

Definitions used to state the verified claims: bounds on runs of blank
items, the derived fold style, the specification's tighter-style condition,
and a flat rendering of documents. -/

/-- Scan of a document list checking that every run of consecutive `nil`
items (blank lines) has length at most `b`; `cur` is the length of the run
in progress. -/
def nilRunBelow (b : Nat) : List Doc → Nat → Bool
  | [], _ => true
  | d :: rest, cur =>
    if d = Doc.nil then decide (cur + 1 ≤ b) && nilRunBelow b rest (cur + 1)
    else nilRunBelow b rest 0

/-- The length of the `nil` run in progress after scanning a document
list, starting from run length `cur`. -/
def endRunFrom (l : List Doc) (cur : Nat) : Nat :=
  l.foldl (fun c d => if d = Doc.nil then c + 1 else 0) cur

/-- Well-spacedness of a code-node list: any two space nodes containing
newlines are separated by an expression or a comment (as produced by the
parser), and comments carry their non-empty source text.  `afterNl` records
whether a newline-carrying space was just seen. -/
def spacedSepGo : Bool → List SyntaxNode → Bool
  | _, [] => true
  | afterNl, n :: rest =>
    if isExprNode n then spacedSepGo false rest
    else if isCommentKind n.kind then decide (n.text ≠ "") && spacedSepGo false rest
    else if n.kind == SyntaxKind.space && countChar n.text '\n' > 0 then
      !afterNl && spacedSepGo true rest
    else spacedSepGo afterNl rest

/-- The fold style derived for a parenthesized argument list by
`convert_parenthesized_args` (src/pretty/func_call.rs lines 50–58): `Never`
exactly when the impl reports the list as multiline. -/
def derivedFoldStyle (cfg : Config) (attrs : Attrs) (argsN : SyntaxNode) :
    FoldStyle :=
  if (convert_parenthesized_args_impl cfg attrs argsN).2.2 then FoldStyle.never
  else FoldStyle.fit

/-- An argument list contains a comment among its items. -/
def containsCommentAmongItems (argsN : SyntaxNode) : Bool :=
  argsN.children.any fun c => isCommentKind c.kind

/-- The specification's tighter-style condition (§4.4 rule 1): the list is
empty, or has exactly one argument whose value expression is not itself a
function call. -/
def specTighter (argsN : SyntaxNode) : Prop :=
  parenArgsOf argsN = [] ∨
    ∃ a, parenArgsOf argsN = [a] ∧ (argValueOf a).kind ≠ SyntaxKind.funcCall

instance (argsN : SyntaxNode) : Decidable (specTighter argsN) := by
  unfold specTighter
  rcases h : parenArgsOf argsN with _ | ⟨a, rest⟩
  · exact isTrue (Or.inl rfl)
  · rcases rest with _ | ⟨b, rest⟩
    · by_cases hk : (argValueOf a).kind = SyntaxKind.funcCall
      · refine isFalse ?_
        rintro (h1 | ⟨c, h1, h2⟩)
        · exact List.noConfusion h1
        · injection h1 with h3 h4
          exact h2 (h3 ▸ hk)
      · exact isTrue (Or.inr ⟨a, rfl, hk⟩)
    · refine isFalse ?_
      rintro (h1 | ⟨c, h1, h2⟩)
      · exact List.noConfusion h1
      · injection h1 with h3 h4
        exact List.noConfusion h4

/-- Flat rendering of a document: every group is laid out flat, soft lines
become spaces, soft breaks become nothing, hard lines become newlines. -/
def flatRender : Doc → String
  | .nil => ""
  | .text s => s
  | .line => " "
  | .lineU => ""
  | .hardline => "\n"
  | .concat a b => flatRender a ++ flatRender b
  | .nest _ d => flatRender d
  | .group d => flatRender d

/-- A run of horizontal whitespace: spaces and tabs only. -/
def isHorizontalRun (s : String) : Bool :=
  !s.data.isEmpty && s.data.all fun c => c == ' ' || c == '\t'

/-- The attribute assignment in which nothing is special. -/
def attrsNone : Attrs := ⟨fun _ => false, fun _ => false, fun _ => false, fun _ => false⟩

/-- A small configuration with blank-line bound 1, as in the spec's
Scenario D. -/
def cfgB1 : Config := ⟨80, 1⟩

/-! ## Concrete example trees used at concrete inputs -/

/-- A line comment carrying the disable sentinel. -/
def exComment : SyntaxNode := SyntaxNode.mk SyntaxKind.lineComment "// @typstyle off" []

/-- A childless sibling following the sentinel comment. -/
def exLeafX : SyntaxNode := SyntaxNode.mk SyntaxKind.ident "x" []

/-- The first sibling with children following the sentinel comment. -/
def exBranchB : SyntaxNode :=
  SyntaxNode.mk SyntaxKind.other "b" [SyntaxNode.mk SyntaxKind.ident "y" []]

/-- A later sibling with children following the sentinel comment. -/
def exBranchC : SyntaxNode :=
  SyntaxNode.mk SyntaxKind.other "c" [SyntaxNode.mk SyntaxKind.ident "z" []]

/-- A parent whose children are the sentinel comment, a childless sibling
and two siblings with children. -/
def exParent : SyntaxNode :=
  SyntaxNode.mk SyntaxKind.other "" [exComment, exLeafX, exBranchB, exBranchC]

/-- A code block containing an ordinary comment child (no sentinel): one of
the kinds the always-true guard was presumably meant to exclude. -/
def exC9Node : SyntaxNode :=
  SyntaxNode.mk SyntaxKind.codeBlock "" [SyntaxNode.mk SyntaxKind.blockComment "/* hi */" []]

/-- The attribute assignment in which every node is format-disabled. -/
def attrsAllDisabled : Attrs :=
  ⟨fun _ => false, fun _ => false, fun _ => true, fun _ => false⟩

/-- The argument node of `f(a, /* c */ b)`: two arguments with a block
comment among the items and no newline anywhere. -/
def exArgsComment : SyntaxNode :=
  SyntaxNode.mk SyntaxKind.args ""
    [SyntaxNode.mk SyntaxKind.leftParen "(" [],
     SyntaxNode.mk SyntaxKind.ident "a" [],
     SyntaxNode.mk SyntaxKind.comma "," [],
     SyntaxNode.mk SyntaxKind.space " " [],
     SyntaxNode.mk SyntaxKind.blockComment "/* c */" [],
     SyntaxNode.mk SyntaxKind.space " " [],
     SyntaxNode.mk SyntaxKind.ident "b" [],
     SyntaxNode.mk SyntaxKind.rightParen ")" []]

/-- The argument node of `f(⏎ a)`: a leading space containing a newline. -/
def exArgsMultiline : SyntaxNode :=
  SyntaxNode.mk SyntaxKind.args ""
    [SyntaxNode.mk SyntaxKind.leftParen "(" [],
     SyntaxNode.mk SyntaxKind.space "\n  " [],
     SyntaxNode.mk SyntaxKind.ident "a" [],
     SyntaxNode.mk SyntaxKind.rightParen ")" []]

/-- The argument node of `f( x )`: a single non-call argument padded by
spaces inside the parentheses. -/
def exSpacedArgs : SyntaxNode :=
  SyntaxNode.mk SyntaxKind.args ""
    [SyntaxNode.mk SyntaxKind.leftParen "(" [],
     SyntaxNode.mk SyntaxKind.space " " [],
     SyntaxNode.mk SyntaxKind.ident "x" [],
     SyntaxNode.mk SyntaxKind.space " " [],
     SyntaxNode.mk SyntaxKind.rightParen ")" []]

/-- The argument node of `f()`: an empty parenthesized list. -/
def exEmptyArgs : SyntaxNode :=
  SyntaxNode.mk SyntaxKind.args ""
    [SyntaxNode.mk SyntaxKind.leftParen "(" [],
     SyntaxNode.mk SyntaxKind.rightParen ")" []]

/-- A code-node list with two expressions separated by a space carrying
three blank lines. -/
def exCodeNodes : List SyntaxNode :=
  [SyntaxNode.mk SyntaxKind.ident "a" [],
   SyntaxNode.mk SyntaxKind.space "\n\n\n\n" [],
   SyntaxNode.mk SyntaxKind.ident "b" []]

/-! ## Lemmas about the whitespace-stripping pass -/

theorem splitNl_ne_nil (l : List Char) : splitNl l ≠ [] := by
  induction l with
  | nil => simp [splitNl]
  | cons c cs ih =>
    simp only [splitNl]
    split
    · simp
    · rcases h : splitNl cs with _ | ⟨p, ps⟩
      · simp
      · simp

theorem mem_splitNl_no_nl {l : List Char} {p : List Char}
    (h : p ∈ splitNl l) : '\n' ∉ p := by
  induction l generalizing p with
  | nil =>
    simp only [splitNl, List.mem_singleton] at h
    simp [h]
  | cons c cs ih =>
    simp only [splitNl] at h
    split at h
    · rcases List.mem_cons.1 h with h1 | h1
      · simp [h1]
      · exact ih h1
    · rename_i hc
      rcases hq : splitNl cs with _ | ⟨q, qs⟩
      · exact absurd hq (splitNl_ne_nil cs)
      · rw [hq] at h
        rcases List.mem_cons.1 h with h1 | h1
        · subst h1
          intro hmem
          rcases List.mem_cons.1 hmem with h2 | h2
          · exact hc h2.symm
          · exact ih (hq ▸ List.mem_cons_self q qs) h2
        · exact ih (hq ▸ List.mem_cons.2 (Or.inr h1))

theorem splitNl_append_nl {t : List Char} (r : List Char) (ht : '\n' ∉ t) :
    splitNl (t ++ '\n' :: r) = t :: splitNl r := by
  induction t with
  | nil => simp [splitNl]
  | cons c cs ih =>
    have hc : c ≠ '\n' := fun h => ht (h ▸ List.mem_cons_self c cs)
    have hcs : '\n' ∉ cs := fun h => ht (List.mem_cons.2 (Or.inr h))
    simp only [List.cons_append, splitNl, if_neg hc, List.append_eq]
    rw [ih hcs]

theorem joinNl_split {ts : List (List Char)} (hne : ts ≠ [])
    (hnl : ∀ t ∈ ts, '\n' ∉ t) :
    splitNl (joinNl ts ++ ['\n']) = ts ++ [[]] := by
  induction ts with
  | nil => exact absurd rfl hne
  | cons x xs ih =>
    rcases xs with _ | ⟨y, ys⟩
    · simp only [joinNl]
      have := splitNl_append_nl [] (hnl x (List.mem_cons_self x []))
      simpa [splitNl] using this
    · simp only [joinNl, List.cons_append, List.append_assoc]
      rw [splitNl_append_nl (joinNl (y :: ys) ++ ['\n'])
        (hnl x (List.mem_cons_self x (y :: ys)))]
      rw [ih (by simp) (fun t h => hnl t (List.mem_cons.2 (Or.inr h)))]
      simp

theorem dropCr_eq_self {l : List Char} (h : l.getLast? ≠ some '\r') :
    dropCr l = l := by
  simp [dropCr, h]

theorem map_dropCr_id {l : List (List Char)}
    (h : ∀ t ∈ l, t.getLast? ≠ some '\r') : l.map dropCr = l := by
  induction l with
  | nil => rfl
  | cons a as ih =>
    simp only [List.map_cons]
    rw [dropCr_eq_self (h a (List.mem_cons_self a as)),
      ih (fun t h1 => h t (List.mem_cons.2 (Or.inr h1)))]

theorem rustLines_clean {ts : List (List Char)}
    (h : ∀ t ∈ ts, '\n' ∉ t ∧ t.getLast? ≠ some '\r') :
    rustLines (joinNl ts ++ ['\n']) = if ts = [] then [[]] else ts := by
  rcases hts : ts with _ | ⟨x, xs⟩
  · simp [joinNl, rustLines, splitNl, dropCr]
  · subst hts
    have hsplit := joinNl_split (List.cons_ne_nil x xs) (fun t h1 => (h t h1).1)
    have hlast : (x :: (xs ++ [([] : List Char)])).getLastD [] = [] := by
      rw [← List.cons_append, List.getLastD_eq_getLast?, List.getLast?_concat]
      rfl
    have hdrop : (x :: (xs ++ [([] : List Char)])).dropLast = x :: xs := by
      rw [← List.cons_append]
      exact List.dropLast_concat
    unfold rustLines
    rw [hsplit]
    rw [show (x :: xs ++ [([] : List Char)]) = x :: (xs ++ [([] : List Char)]) from rfl]
    rw [hlast, hdrop, if_pos rfl, map_dropCr_id (fun t h1 => (h t h1).2)]
    simp

theorem dropWhile_head_not {p : Char → Bool} {l : List Char} {c : Char}
    (h : (l.dropWhile p).head? = some c) : p c = false := by
  induction l with
  | nil => simp [List.dropWhile] at h
  | cons a as ih =>
    rw [List.dropWhile_cons] at h
    split at h
    · exact ih h
    · rename_i hp
      simp only [List.head?_cons, Option.some.injEq] at h
      subst h
      exact Bool.not_eq_true _ ▸ (by simpa using hp)

theorem trimEnd_getLast_not_ws {l : List Char} {c : Char}
    (h : (trimEndList l).getLast? = some c) : rustWhitespace c = false := by
  unfold trimEndList at h
  rw [List.getLast?_reverse] at h
  exact dropWhile_head_not h

theorem trimEnd_no_nl {l : List Char} (h : '\n' ∉ l) : '\n' ∉ trimEndList l := by
  intro hmem
  unfold trimEndList at hmem
  exact h (List.mem_reverse.1
    ((List.dropWhile_sublist _).subset (List.mem_reverse.1 hmem)))

theorem trimEnd_not_cr {l : List Char} : (trimEndList l).getLast? ≠ some '\r' := by
  intro h
  have := trimEnd_getLast_not_ws h
  simp [rustWhitespace] at this

theorem trimEnd_not_space {l : List Char} : (trimEndList l).getLast? ≠ some ' ' := by
  intro h
  have := trimEnd_getLast_not_ws h
  simp [rustWhitespace] at this

theorem trimEnd_not_tab {l : List Char} : (trimEndList l).getLast? ≠ some '\t' := by
  intro h
  have := trimEnd_getLast_not_ws h
  simp [rustWhitespace] at this

theorem getLastD_mem {l : List (List Char)} (h : l ≠ []) :
    l.getLastD [] ∈ l := by
  rw [List.getLastD_eq_getLast?, List.getLast?_eq_getLast l h]
  exact List.getLast_mem h

theorem mem_rustLines_no_nl {l : List Char} {line : List Char}
    (h : line ∈ rustLines l) : '\n' ∉ line := by
  unfold rustLines at h
  have hsub : ∀ p, p ∈ (splitNl l).dropLast.map dropCr → '\n' ∉ p := by
    intro p hp
    rcases List.mem_map.1 hp with ⟨q, hq, rfl⟩
    have hq2 : q ∈ splitNl l := (List.dropLast_sublist _).subset hq
    have hq3 := mem_splitNl_no_nl hq2
    intro hmem
    unfold dropCr at hmem
    split at hmem
    · exact hq3 ((List.dropLast_sublist q).subset hmem)
    · exact hq3 hmem
  split at h
  · exact hsub _ h
  · rcases List.mem_append.1 h with h1 | h1
    · exact hsub _ h1
    · rw [List.mem_singleton] at h1
      subst h1
      exact mem_splitNl_no_nl (getLastD_mem (splitNl_ne_nil l))

theorem stwData_lines (l : List Char) :
    rustLines (stwData l) =
      if (rustLines l).map trimEndList = [] then [[]]
      else (rustLines l).map trimEndList := by
  unfold stwData
  apply rustLines_clean
  intro t ht
  rcases List.mem_map.1 ht with ⟨q, hq, rfl⟩
  exact ⟨trimEnd_no_nl (mem_rustLines_no_nl hq), trimEnd_not_cr⟩

theorem getLast?_mem' {l : List Char} {a : Char} (h : l.getLast? = some a) :
    a ∈ l := by
  rcases List.mem_getLast?_eq_getLast (show a ∈ l.getLast? from h) with ⟨h1, h2⟩
  exact h2 ▸ List.getLast_mem h1

theorem joinNl_last_not_nl {ts : List (List Char)}
    (hnl : ∀ t ∈ ts, '\n' ∉ t)
    (hlast : ts.length ≤ 1 ∨ ts.getLastD [] ≠ []) :
    (joinNl ts).getLast? ≠ some '\n' := by
  induction ts with
  | nil => simp [joinNl]
  | cons x xs ih =>
    rcases xs with _ | ⟨y, ys⟩
    · show (joinNl [x]).getLast? ≠ some '\n'
      intro hc
      exact hnl x (List.mem_cons_self x []) (getLast?_mem' (show x.getLast? = some '\n' from hc))
    · have hr : (y :: ys).getLastD x ≠ [] := by
        rcases hlast with h1 | h1
        · simp at h1
        · rw [List.getLastD_cons] at h1
          exact h1
      have hnl' : ∀ t ∈ y :: ys, '\n' ∉ t :=
        fun t h1 => hnl t (List.mem_cons.2 (Or.inr h1))
      show (x ++ '\n' :: joinNl (y :: ys)).getLast? ≠ some '\n'
      rw [List.getLast?_append, List.getLast?_cons]
      intro hc
      have hc2 : (joinNl (y :: ys)).getLast?.getD '\n' = '\n' := by
        have : (some ((joinNl (y :: ys)).getLast?.getD '\n')).or x.getLast? =
            some ((joinNl (y :: ys)).getLast?.getD '\n') := rfl
        rw [this] at hc
        exact Option.some.inj hc
      rcases hj : (joinNl (y :: ys)).getLast? with _ | a
      · -- the joined tail is empty, so the tail is the single empty line
        have hjnil : joinNl (y :: ys) = [] := by
          rcases hje : joinNl (y :: ys) with _ | ⟨b, bs⟩
          · rfl
          · rw [hje] at hj
            simp [List.getLast?_cons] at hj
        rcases ys with _ | ⟨z, zs⟩
        · have : y = [] := hjnil
          rw [List.getLastD_eq_getLast?] at hr
          rw [show (([y] : List (List Char)).getLast? = some y) from rfl] at hr
          exact hr (by simp [this])
        · have : joinNl (y :: z :: zs) = y ++ '\n' :: joinNl (z :: zs) := rfl
          rw [this] at hjnil
          exact List.noConfusion (List.append_eq_nil.1 hjnil).2
      · rw [hj] at hc2
        simp only [Option.getD_some] at hc2
        subst hc2
        have hlast' : (y :: ys).length ≤ 1 ∨ (y :: ys).getLastD [] ≠ [] := by
          right
          intro hcontra
          rw [List.getLastD_eq_getLast?] at hcontra hr
          rcases hgl : (y :: ys).getLast? with _ | b
          · simp [List.getLast?_cons] at hgl
          · rw [hgl] at hcontra hr
            simp only [Option.getD_some] at hcontra hr
            exact hr hcontra
        exact ih hnl' hlast' hj

/-! ## Claim theorems -/

/-- Claim C3 (amended): for every input string, `strip_trailing_whitespace`
produces a string none of whose lines ends in a space or a tab, and which
ends in a trailing newline; the trailing newline is unique provided the
input has at most one line or the input's last line does not trim to
nothing. -/
theorem thm_C3 (s : String) :
    (∀ line ∈ rustLines (strip_trailing_whitespace s).data,
        line.getLast? ≠ some ' ' ∧ line.getLast? ≠ some '\t') ∧
    (strip_trailing_whitespace s).data.getLast? = some '\n' ∧
    (((rustLines s.data).length ≤ 1 ∨
        trimEndList ((rustLines s.data).getLastD []) ≠ []) →
      (strip_trailing_whitespace s).data.dropLast.getLast? ≠ some '\n') := by
  have hdata : (strip_trailing_whitespace s).data = stwData s.data := rfl
  refine ⟨?_, ?_, ?_⟩
  · intro line hline
    rw [hdata, stwData_lines] at hline
    split at hline
    · rw [List.mem_singleton] at hline
      subst hline
      exact ⟨by simp, by simp⟩
    · rcases List.mem_map.1 hline with ⟨q, hq, rfl⟩
      exact ⟨trimEnd_not_space, trimEnd_not_tab⟩
  · rw [hdata]
    unfold stwData
    exact List.getLast?_concat _
  · intro h
    rw [hdata]
    unfold stwData
    rw [List.dropLast_concat]
    apply joinNl_last_not_nl
    · intro t ht
      rcases List.mem_map.1 ht with ⟨q, hq, rfl⟩
      exact trimEnd_no_nl (mem_rustLines_no_nl hq)
    · rcases h with h | h
      · left
        rw [List.length_map]
        exact h
      · rcases hlq : rustLines s.data with _ | ⟨a, as⟩
        · left
          simp [hlq]
        · right
          rw [List.getLastD_eq_getLast?, List.getLast?_map]
          rw [List.getLastD_eq_getLast?] at h
          rcases hgl : (a :: as).getLast? with _ | q
          · simp [List.getLast?_cons] at hgl
          · rw [hlq, hgl] at h
            simpa using h

/-- Claim C3 counterexample: on the input `"a\n\n"` the output of
`strip_trailing_whitespace` is `"a\n\n"` again, which ends in two
consecutive newlines, contradicting the claimed unique trailing newline. -/
theorem cex_C3 :
    strip_trailing_whitespace "a\n\n" = "a\n\n" ∧
    (strip_trailing_whitespace "a\n\n").data.getLast? = some '\n' ∧
    (strip_trailing_whitespace "a\n\n").data.dropLast.getLast? = some '\n' := by
  refine ⟨?_, ?_, ?_⟩ <;> decide

/-- Claim C3 witness: the amended uniqueness conclusion evaluated on the
concrete input `"a "`. -/
theorem thm_C3_w :
    (strip_trailing_whitespace "a ").data.dropLast.getLast? ≠ some '\n' :=
  (thm_C3 "a ").2.2 (Or.inl (by decide))

/-- Claim C2: formatting is refused exactly at the syntax-error boundary.
For every source whose tree reports an error, `format_source` returns the
distinguishable syntax-error outcome independently of the downstream
conversion pipeline (so before any attribute store or conversion runs), and
`format_with_width` returns the original input unchanged; for every
error-free source, `format_source` returns `Ok` with the stripped rendered
text. -/
theorem thm_C2 (pl pl' : SyntaxNode → Nat → String) (cfg : Config)
    (parse : String → SyntaxNode) (s : String) (w : Nat) (src : Source) :
    (nodeErroneous src.root = true →
      format_source pl cfg src = Except.error FormatError.syntaxError ∧
      format_source pl cfg src = format_source pl' cfg src) ∧
    (nodeErroneous (parse s) = true → format_with_width pl parse s w = s) ∧
    (nodeErroneous src.root = false →
      format_source pl cfg src =
        Except.ok (strip_trailing_whitespace (pl src.root cfg.max_width))) := by
  refine ⟨fun h => ⟨?_, ?_⟩, fun h => ?_, fun h => ?_⟩
  · simp [format_source, h]
  · simp [format_source, h]
  · simp [format_with_width, format_content, format_source, h]
  · simp [format_source, h]

/-- Claim C2 witness: the boundary behaviour evaluated on a concrete
erroneous tree and a concrete error-free tree. -/
theorem thm_C2_w :
    (format_source (fun _ _ => "x") configNew
        ⟨SyntaxNode.mk SyntaxKind.errorKind "#[" [], "#["⟩ =
      Except.error FormatError.syntaxError) ∧
    (format_with_width (fun _ _ => "x")
        (fun _ => SyntaxNode.mk SyntaxKind.errorKind "#[" []) "#[" 80 = "#[") ∧
    (format_source (fun _ _ => "x") configNew
        ⟨SyntaxNode.mk SyntaxKind.ident "a" [], "a"⟩ =
      Except.ok (strip_trailing_whitespace "x")) := by
  have h1 := thm_C2 (fun _ _ => "x") (fun _ _ => "y") configNew
    (fun _ => SyntaxNode.mk SyntaxKind.errorKind "#[" []) "#[" 80
    ⟨SyntaxNode.mk SyntaxKind.errorKind "#[" [], "#["⟩
  have h2 := thm_C2 (fun _ _ => "x") (fun _ _ => "y") configNew
    (fun _ => SyntaxNode.mk SyntaxKind.errorKind "#[" []) "#[" 80
    ⟨SyntaxNode.mk SyntaxKind.ident "a" [], "a"⟩
  have he : nodeErroneous (SyntaxNode.mk SyntaxKind.errorKind "#[" []) = true := by
    simp [nodeErroneous]
  have hg : nodeErroneous (SyntaxNode.mk SyntaxKind.ident "a" []) = false := by
    simp [nodeErroneous]
  exact ⟨(h1.1 he).1, h1.2.1 he, h2.2.2 hg⟩

/-! ## Lemmas about the attribute pass -/

theorem one_le_sizeOf_nodes (cs : List SyntaxNode) : 1 ≤ sizeOf cs := by
  cases cs <;> simp only [List.nil.sizeOf_spec, List.cons.sizeOf_spec] <;> omega

theorem subset_insertNode (n : SyntaxNode) (m : List SyntaxNode) :
    m ⊆ insertNode n m := by
  unfold insertNode
  split
  · exact fun x hx => hx
  · exact fun x hx => List.mem_cons.2 (Or.inr hx)

theorem mem_insertNode (n : SyntaxNode) (m : List SyntaxNode) :
    n ∈ insertNode n m := by
  unfold insertNode
  split
  · assumption
  · exact List.mem_cons_self n m

theorem subset_ite_insert {c : Bool} {a : SyntaxNode} {m : List SyntaxNode} :
    m ⊆ (if c then insertNode a m else m) := by
  split
  · exact subset_insertNode a m
  · exact fun x hx => hx

theorem parentMarkCond_true (k : SyntaxKind) : parentMarkCond k = true := by
  cases k <;> rfl

theorem subset_nfc (N : Nat) : ∀ (cs : List SyntaxNode), sizeOf cs ≤ N →
    ∀ (parent : SyntaxNode) (noFormat : Bool) (map : List SyntaxNode),
      map ⊆ noFormatChildren parent cs noFormat map := by
  induction N with
  | zero =>
    intro cs hcs
    have := one_le_sizeOf_nodes cs
    omega
  | succ N ih =>
    intro cs hcs parent noFormat map
    rcases cs with _ | ⟨child, rest⟩
    · rw [noFormatChildren]
      exact fun x hx => hx
    · have hrest : sizeOf rest ≤ N := by
        simp only [List.cons.sizeOf_spec] at hcs
        have := one_le_sizeOf_nodes rest
        omega
      rw [noFormatChildren]
      split
      · refine List.Subset.trans ?_ (ih rest hrest parent _ _)
        exact List.Subset.trans subset_ite_insert subset_ite_insert
      · split
        · exact List.Subset.trans (subset_insertNode child map) (ih rest hrest parent _ _)
        · split
          · exact ih rest hrest parent _ _
          · split
            · exact List.Subset.trans (subset_insertNode child map)
                (ih rest hrest parent _ _)
            · refine List.Subset.trans ?_ (ih rest hrest parent _ _)
              rw [get_no_format_nodes_impl]
              split
              · exact fun x hx => hx
              · have hchild : sizeOf child.children ≤ N := by
                  have h1 := SyntaxNode.sizeOf_children_lt child
                  simp only [List.cons.sizeOf_spec] at hcs
                  omega
                exact ih child.children hchild child false map

theorem subset_impl (node : SyntaxNode) (map : List SyntaxNode) :
    map ⊆ get_no_format_nodes_impl node map := by
  rw [get_no_format_nodes_impl]
  split
  · exact fun x hx => hx
  · exact subset_nfc (sizeOf node.children) node.children (Nat.le_refl _) node false map

theorem parent_mem_nfc : ∀ (cs : List SyntaxNode) (parent : SyntaxNode)
    (noFormat : Bool) (map : List SyntaxNode),
    (cs.any fun c => isCommentKind c.kind) = true →
    parent ∈ noFormatChildren parent cs noFormat map := by
  intro cs
  induction cs with
  | nil => intro parent noFormat map h; simp at h
  | cons child rest ih =>
    intro parent noFormat map hany
    rw [noFormatChildren]
    rcases hcomment : isCommentKind child.kind with _ | _
    · have hrest : (rest.any fun c => isCommentKind c.kind) = true := by
        simp only [List.any_cons, hcomment, Bool.false_or] at hany
        exact hany
      rw [if_neg (by simp [hcomment])]
      split
      · exact ih parent _ _ hrest
      · split
        · exact ih parent _ _ hrest
        · split
          · exact ih parent _ _ hrest
          · exact ih parent _ _ hrest
    · rw [if_pos rfl]
      dsimp only
      rw [if_pos (parentMarkCond_true parent.kind)]
      refine subset_nfc (sizeOf rest) rest (Nat.le_refl _) parent _ _ ?_
      exact mem_insertNode parent _

theorem nfc_mids : ∀ (mids : List SyntaxNode) (parent d : SyntaxNode)
    (rest map : List SyntaxNode),
    (∀ m ∈ mids, m.children = [] ∨ isCommentKind m.kind = true) →
    isCommentKind d.kind = false → d.children ≠ [] →
    d ∈ noFormatChildren parent (mids ++ d :: rest) true map := by
  intro mids
  induction mids with
  | nil =>
    intro parent d rest map _ hdc hdch
    rw [List.nil_append, noFormatChildren, if_neg (by simp [hdc])]
    have h2d : (d.kind == SyntaxKind.args && is_2d_arg d) = false ∨
        (d.kind == SyntaxKind.args && is_2d_arg d) = true := by
      rcases (d.kind == SyntaxKind.args && is_2d_arg d) with _ | _
      · exact Or.inl rfl
      · exact Or.inr rfl
    rcases h2d with h2d | h2d
    · rw [if_neg (by simp [h2d])]
      rw [if_neg (by simpa [List.isEmpty_iff] using hdch)]
      rw [if_pos rfl]
      exact subset_nfc (sizeOf rest) rest (Nat.le_refl _) parent _ _
        (mem_insertNode d map)
    · -- a 2-d argument list is itself inserted
      rw [if_pos h2d]
      exact subset_nfc (sizeOf rest) rest (Nat.le_refl _) parent _ _
        (mem_insertNode d map)
  | cons m ms ih =>
    intro parent d rest map hmids hdc hdch
    rw [List.cons_append, noFormatChildren]
    rcases hmc : isCommentKind m.kind with _ | _
    · have hm := hmids m (List.mem_cons_self m ms)
      rcases hm with hm | hm
      · rw [if_neg (by simp [hmc])]
        have h2d : (m.kind == SyntaxKind.args && is_2d_arg m) = false := by
          unfold is_2d_arg
          rw [hm]
          simp
        rw [if_neg (by simp [h2d])]
        rw [if_pos (by simp [hm])]
        exact ih parent d rest map
          (fun x hx => hmids x (List.mem_cons.2 (Or.inr hx))) hdc hdch
      · rw [hm] at hmc
        exact absurd hmc (by simp)
    · rw [if_pos rfl]
      dsimp only
      have hflag : (if strContainsSub m.text disableSentinel = true then true else true) = true := by
        split <;> rfl
      rw [hflag]
      exact ih parent d rest _
        (fun x hx => hmids x (List.mem_cons.2 (Or.inr hx))) hdc hdch

/-- Claim C9: the disabled-region guard of shape
`kind != ContentBlock || kind != CodeBlock || kind != Code` is true for
every node kind, and consequently any node with a comment child is marked
format-disabled by the attribute pass regardless of its own kind. -/
theorem thm_C9 :
    (∀ k : SyntaxKind, parentMarkCond k = true) ∧
    (∀ (node : SyntaxNode) (map : List SyntaxNode),
      (node.children.any fun c => isCommentKind c.kind) = true →
      node ∈ get_no_format_nodes_impl node map) := by
  refine ⟨parentMarkCond_true, fun node map h => ?_⟩
  rw [get_no_format_nodes_impl]
  split
  · assumption
  · exact parent_mem_nfc node.children node false map h

/-- Claim C9 witness: a code block with an ordinary comment child is marked
by the attribute pass, although `CodeBlock` is one of the kinds the guard
names. -/
theorem thm_C9_w :
    parentMarkCond SyntaxKind.codeBlock = true ∧
    exC9Node ∈ get_no_format_nodes_impl exC9Node [] :=
  ⟨thm_C9.1 SyntaxKind.codeBlock, thm_C9.2 exC9Node [] (by decide)⟩

/-- Claim C4 counterexample: in `exParent` the sentinel comment is followed
by the childless sibling `exLeafX`, the sibling `exBranchB` and the sibling
`exBranchC`; the claim marks all subsequent siblings, but the pass leaves
both `exLeafX` and `exBranchC` unmarked (only `exBranchB` is marked). -/
theorem cex_C4 :
    isCommentKind exComment.kind = true ∧
    strContainsSub exComment.text disableSentinel = true ∧
    exLeafX ∉ get_no_format_nodes exParent ∧
    exBranchC ∉ get_no_format_nodes exParent ∧
    exBranchB ∈ get_no_format_nodes exParent := by
  have h1 : strContainsSub "// @typstyle off" "@typstyle off" = true := by decide
  refine ⟨by decide, by decide, ?_, ?_, ?_⟩ <;>
    simp [get_no_format_nodes, get_no_format_nodes_impl, noFormatChildren, insertNode,
      exParent, exComment, exLeafX, exBranchB, exBranchC, h1, isCommentKind,
      parentMarkCond, is_2d_arg, disableSentinel]

/-- Claim C4 (amended): after a sibling comment containing the disable
sentinel, the next subsequent sibling that has children (skipping childless
siblings and further comments, which remain unmarked) is marked
format-disabled; the disable flag is consumed by that sibling. -/
theorem thm_C4 (k : SyntaxKind) (t : String) (comment d : SyntaxNode)
    (mids rest map : List SyntaxNode)
    (hck : isCommentKind comment.kind = true)
    (hcm : strContainsSub comment.text disableSentinel = true)
    (hmids : ∀ m ∈ mids, m.children = [] ∨ isCommentKind m.kind = true)
    (hdc : isCommentKind d.kind = false)
    (hdch : d.children ≠ [])
    (hnm : SyntaxNode.mk k t (comment :: mids ++ d :: rest) ∉ map) :
    d ∈ get_no_format_nodes_impl (SyntaxNode.mk k t (comment :: mids ++ d :: rest)) map := by
  rw [get_no_format_nodes_impl]
  rw [if_neg hnm]
  show d ∈ noFormatChildren _ (comment :: (mids ++ d :: rest)) false map
  rw [noFormatChildren, if_pos hck]
  dsimp only
  rw [if_pos hcm, if_pos hcm]
  rw [if_pos (parentMarkCond_true _)]
  exact nfc_mids mids _ d rest _ hmids hdc hdch

/-- Claim C4 witness: the amended marking behaviour evaluated on the
concrete tree `exParent`. -/
theorem thm_C4_w :
    exBranchB ∈ get_no_format_nodes_impl exParent [] := by
  have h := thm_C4 SyntaxKind.other "" exComment exBranchB [exLeafX] [exBranchC] []
    (by decide) (by decide) (by decide) (by decide) (by decide) (by decide)
  exact h

/-- Claim C7 (amended): every expression that is not format-disabled is
converted to a document wrapped in a `Group` at its top level. -/
theorem thm_C7 (cfg : Config) (attrs : Attrs) (n : SyntaxNode)
    (h : attrs.format_disabled n = false) :
    isDocGroup (convert_expr cfg attrs n) = true := by
  simp [convert_expr, h, isDocGroup]

/-- Claim C7 counterexample: a format-disabled expression is emitted as a
plain verbatim `Text` document, not wrapped in a `Group`, contradicting the
claim that disabled expressions are also group-wrapped. -/
theorem cex_C7 :
    isExprKind (SyntaxNode.mk SyntaxKind.intLit "1" []).kind = true ∧
    convert_expr cfgB1 attrsAllDisabled (SyntaxNode.mk SyntaxKind.intLit "1" []) =
      Doc.text "1" ∧
    isDocGroup (convert_expr cfgB1 attrsAllDisabled
      (SyntaxNode.mk SyntaxKind.intLit "1" [])) = false := by
  have hit : into_text (SyntaxNode.mk SyntaxKind.intLit "1" []) = "1" := by
    rw [into_text]
    simp [String.join]
  refine ⟨by decide, ?_, ?_⟩ <;>
    simp [convert_expr, attrsAllDisabled, hit, isDocGroup]

/-- Claim C7 witness: the group-wrapping conclusion evaluated at a concrete
enabled expression. -/
theorem thm_C7_w :
    isDocGroup (convert_expr cfgB1 attrsNone (SyntaxNode.mk SyntaxKind.intLit "1" [])) =
      true :=
  thm_C7 cfgB1 attrsNone (SyntaxNode.mk SyntaxKind.intLit "1" []) rfl

/-- Claim C10: `convert_space` emits exactly one hard line break when the
space text contains a newline and exactly one single space otherwise; in
particular a horizontal run of spaces and tabs collapses to the one-character
string `" "` under flat rendering. -/
theorem thm_C10 (n : SyntaxNode) :
    (containsChar n.text '\n' = true → convert_space n = Doc.hardline) ∧
    (containsChar n.text '\n' = false → convert_space n = Doc.text " ") ∧
    (isHorizontalRun n.text = true →
      convert_space n = Doc.text " " ∧ flatRender (convert_space n) = " ") := by
  refine ⟨fun h => ?_, fun h => ?_, fun h => ?_⟩
  · simp [convert_space, h]
  · simp [convert_space, h]
  · have hn : containsChar n.text '\n' = false := by
      unfold isHorizontalRun at h
      rw [Bool.and_eq_true] at h
      rcases h with ⟨_, h2⟩
      rw [List.all_eq_true] at h2
      unfold containsChar
      by_contra hc
      rw [Bool.not_eq_false] at hc
      have hmem : '\n' ∈ n.text.data := by simpa using hc
      have := h2 '\n' hmem
      simp at this
    simp [convert_space, hn, flatRender]

/-- Claim C10 witness: the space-collapsing conclusion evaluated at a
concrete run of two spaces and a tab. -/
theorem thm_C10_w :
    convert_space (SyntaxNode.mk SyntaxKind.space "  \t" []) = Doc.text " " ∧
    flatRender (convert_space (SyntaxNode.mk SyntaxKind.space "  \t" [])) = " " :=
  (thm_C10 (SyntaxNode.mk SyntaxKind.space "  \t" [])).2.2 (by decide)

/-- Folding disjunctions: the is-multiline accumulator of
`convert_parenthesized_args_impl` equals the disjunction of its seed and the
per-argument flags. -/
theorem foldl_or_eq (p : SyntaxNode → Bool) :
    ∀ (l : List SyntaxNode) (b : Bool), l.foldl (fun b a => b || p a) b = (b || l.any p) := by
  intro l
  induction l with
  | nil => intro b; simp
  | cons x xs ih =>
    intro b
    simp only [List.foldl_cons, List.any_cons, ih, Bool.or_assoc]

/-- Claim C5 (amended): the fold style derived for a parenthesized argument
list is `Never` whenever the first space among the children before the
closing parenthesis contains a newline, or some argument carries the
multiline attribute flavour; a comment among the items plays no part in the
derivation. -/
theorem thm_C5 (cfg : Config) (attrs : Attrs) (argsN : SyntaxNode)
    (h : firstSpaceMultiline argsN = true ∨
      ∃ a ∈ parenArgsOf argsN, attrs.multiline_flavor a = true) :
    (convert_parenthesized_args_impl cfg attrs argsN).2.2 = true ∧
    derivedFoldStyle cfg attrs argsN = FoldStyle.never := by
  have hmain : (convert_parenthesized_args_impl cfg attrs argsN).2.2 = true := by
    unfold convert_parenthesized_args_impl
    dsimp only
    rw [foldl_or_eq]
    rcases h with h | ⟨a, ha, hflav⟩
    · simp [h]
    · have hany : (parenArgsOf argsN).any attrs.multiline_flavor = true :=
        List.any_eq_true.2 ⟨a, ha, hflav⟩
      simp [hany]
  refine ⟨hmain, ?_⟩
  unfold derivedFoldStyle
  rw [hmain]
  rfl

/-- Claim C5 counterexample: the argument list of `f(a, /* c */ b)` contains
a comment among its items, yet the derived fold style is `Fit`, not `Never`
— the comment plays no part and the list may still collapse onto one
line. -/
theorem cex_C5 :
    containsCommentAmongItems exArgsComment = true ∧
    derivedFoldStyle cfgB1 attrsNone exArgsComment = FoldStyle.fit ∧
    FoldStyle.fit ≠ FoldStyle.never := by
  refine ⟨by decide, ?_, by decide⟩
  unfold derivedFoldStyle
  unfold convert_parenthesized_args_impl
  dsimp only
  rw [foldl_or_eq]
  have h1 : firstSpaceMultiline exArgsComment = false := by decide
  have h2 : (parenArgsOf exArgsComment).any attrsNone.multiline_flavor = false := by
    simp [attrsNone]
  rw [h1, h2]
  rfl

/-- Claim C5 witness: the amended conclusion evaluated on the argument list
of `f(⏎ a)`, whose leading space contains a newline. -/
theorem thm_C5_w :
    derivedFoldStyle cfgB1 attrsNone exArgsMultiline = FoldStyle.never :=
  (thm_C5 cfgB1 attrsNone exArgsMultiline (Or.inl (by decide))).2

theorem length_attach_map {l : List SyntaxNode} {f : {x // x ∈ l} → Doc} :
    (l.attach.map f).length = l.length := by
  rw [List.length_map, List.length_attach]

theorem isEmpty_attach_map {l : List SyntaxNode} {f : {x // x ∈ l} → Doc} :
    (l.attach.map f).isEmpty = l.isEmpty := by
  rcases hl : l.attach.map f with _ | ⟨d, ds⟩
  · have : (l.attach.map f).length = 0 := by rw [hl]; rfl
    rw [length_attach_map] at this
    rw [List.length_eq_zero] at this
    rw [this]
    rfl
  · have : (l.attach.map f).length = ds.length + 1 := by rw [hl]; rfl
    rw [length_attach_map] at this
    rcases l with _ | ⟨x, xs⟩
    · simp at this
    · rfl

/-- Claim C6: the tighter style.  The prefer-tighter flag computed by
`convert_parenthesized_args_impl` holds exactly when the list is empty or
has one argument whose value expression is not a function call; in that
case `convert_parenthesized_args` renders the opening parenthesis, the
single converted item (if any) and the closing parenthesis with no added
breaking opportunity; every other list goes through the comma-separated
fold-style layout. -/
theorem thm_C6 (cfg : Config) (attrs : Attrs) (argsN : SyntaxNode) :
    ((convert_parenthesized_args_impl cfg attrs argsN).2.1 = true ↔ specTighter argsN) ∧
    (specTighter argsN →
      convert_parenthesized_args cfg attrs argsN =
        Doc.text "(" ++ (convert_parenthesized_args_impl cfg attrs argsN).1.headD Doc.nil ++
          Doc.text ")" ∧
      breakCount (convert_parenthesized_args cfg attrs argsN) =
        breakCount ((convert_parenthesized_args_impl cfg attrs argsN).1.headD Doc.nil)) ∧
    (¬ specTighter argsN →
      convert_parenthesized_args cfg attrs argsN =
        comma_seprated_items (convert_parenthesized_args_impl cfg attrs argsN).1
          (if (convert_parenthesized_args_impl cfg attrs argsN).2.2 = true then
            FoldStyle.never else FoldStyle.fit)) := by
  have hiff : (convert_parenthesized_args_impl cfg attrs argsN).2.1 = true ↔
      specTighter argsN := by
    unfold convert_parenthesized_args_impl specTighter
    dsimp only
    constructor
    · intro h
      rw [Bool.or_eq_true] at h
      rcases h with h | h
      · left
        rw [isEmpty_attach_map] at h
        exact List.isEmpty_iff.1 h
      · right
        rw [Bool.and_eq_true] at h
        rcases h with ⟨h1, h2⟩
        rw [beq_iff_eq, length_attach_map] at h1
        rcases hp : parenArgsOf argsN with _ | ⟨a, rest⟩
        · rw [hp] at h1
          simp at h1
        · rcases rest with _ | ⟨b, rest2⟩
          · refine ⟨a, rfl, ?_⟩
            rw [hp] at h2
            simpa using h2
          · rw [hp] at h1
            simp at h1
    · intro h
      rw [Bool.or_eq_true]
      rcases h with h | ⟨a, ha, hk⟩
      · left
        rw [isEmpty_attach_map, h]
        rfl
      · right
        rw [Bool.and_eq_true]
        refine ⟨?_, ?_⟩
        · rw [beq_iff_eq, length_attach_map, ha]
          rfl
        · rw [ha]
          simpa using hk
  refine ⟨hiff, fun h => ?_, fun h => ?_⟩
  · have ht : (convert_parenthesized_args_impl cfg attrs argsN).2.1 = true := hiff.2 h
    unfold convert_parenthesized_args
    dsimp only
    rw [if_pos ht]
    refine ⟨rfl, ?_⟩
    simp [breakCount]
  · have ht : (convert_parenthesized_args_impl cfg attrs argsN).2.1 = false := by
      rcases hb : (convert_parenthesized_args_impl cfg attrs argsN).2.1 with _ | _
      · rfl
      · exact absurd (hiff.1 hb) h
    unfold convert_parenthesized_args
    dsimp only
    rw [if_neg (by rw [ht]; exact Bool.false_ne_true)]

/-- Claim C6 witness: the tight rendering evaluated on the empty argument
list of `f()` and on the space-padded single-argument list of `f( x )`,
whose spaces are not arguments, so the list still prefers the tighter
style. -/
theorem thm_C6_w :
    (convert_parenthesized_args cfgB1 attrsNone exEmptyArgs =
      Doc.text "(" ++
        (convert_parenthesized_args_impl cfgB1 attrsNone exEmptyArgs).1.headD Doc.nil ++
        Doc.text ")") ∧
    parenArgsOf exSpacedArgs = [SyntaxNode.mk SyntaxKind.ident "x" []] ∧
    (convert_parenthesized_args cfgB1 attrsNone exSpacedArgs =
      Doc.text "(" ++
        (convert_parenthesized_args_impl cfgB1 attrsNone exSpacedArgs).1.headD Doc.nil ++
        Doc.text ")") :=
  ⟨((thm_C6 cfgB1 attrsNone exEmptyArgs).2.1 (Or.inl (by decide))).1,
   by decide,
   ((thm_C6 cfgB1 attrsNone exSpacedArgs).2.1
     (Or.inr ⟨SyntaxNode.mk SyntaxKind.ident "x" [], by decide, by decide⟩)).1⟩

/-! ## Lemmas about blank-line runs in converted code -/

theorem endRunFrom_cons (d : Doc) (ds : List Doc) (c : Nat) :
    endRunFrom (d :: ds) c = endRunFrom ds (if d = Doc.nil then c + 1 else 0) := by
  unfold endRunFrom
  rw [List.foldl_cons]

theorem nilRunBelow_append (b : Nat) :
    ∀ (l₁ l₂ : List Doc) (c : Nat),
    nilRunBelow b (l₁ ++ l₂) c =
      (nilRunBelow b l₁ c && nilRunBelow b l₂ (endRunFrom l₁ c)) := by
  intro l₁
  induction l₁ with
  | nil =>
    intro l₂ c
    simp [nilRunBelow, endRunFrom]
  | cons d ds ih =>
    intro l₂ c
    rw [List.cons_append]
    simp only [nilRunBelow, endRunFrom_cons]
    split
    · rw [ih, ← Bool.and_assoc]
    · rw [ih]

theorem endRunFrom_append (l₁ l₂ : List Doc) (c : Nat) :
    endRunFrom (l₁ ++ l₂) c = endRunFrom l₂ (endRunFrom l₁ c) := by
  unfold endRunFrom
  rw [List.foldl_append]

theorem nilRunBelow_replicate (b : Nat) :
    ∀ (k c : Nat), c + k ≤ b → nilRunBelow b (List.replicate k Doc.nil) c = true := by
  intro k
  induction k with
  | zero => intro c _; rfl
  | succ k ih =>
    intro c h
    rw [List.replicate_succ]
    rw [show nilRunBelow b (Doc.nil :: List.replicate k Doc.nil) c =
      (decide (c + 1 ≤ b) && nilRunBelow b (List.replicate k Doc.nil) (c + 1)) from by
        rw [nilRunBelow, if_pos rfl]]
    rw [ih (c + 1) (by omega), Bool.and_true]
    exact decide_eq_true (by omega)

theorem endRunFrom_replicate :
    ∀ (k c : Nat), endRunFrom (List.replicate k Doc.nil) c = c + k := by
  intro k
  induction k with
  | zero => intro c; rfl
  | succ k ih =>
    intro c
    rw [List.replicate_succ, endRunFrom_cons, if_pos rfl, ih]
    omega

theorem nilRunBelow_singleton {b c : Nat} {d : Doc} (hd : d ≠ Doc.nil) :
    nilRunBelow b [d] c = true := by
  rw [nilRunBelow, if_neg hd]
  rfl

theorem endRunFrom_singleton {c : Nat} {d : Doc} (hd : d ≠ Doc.nil) :
    endRunFrom [d] c = 0 := by
  rw [endRunFrom_cons, if_neg hd]
  rfl

theorem convert_expr_ne_nil (cfg : Config) (attrs : Attrs) (n : SyntaxNode) :
    convert_expr cfg attrs n ≠ Doc.nil := by
  unfold convert_expr
  split
  · exact fun h => Doc.noConfusion h
  · exact fun h => Doc.noConfusion h

theorem splitNl_eq_singleton {l : List Char} (h : splitNl l = [[]]) : l = [] := by
  rcases l with _ | ⟨c, cs⟩
  · rfl
  · exfalso
    rw [splitNl] at h
    split at h
    · injection h with h1 h2
      exact splitNl_ne_nil cs h2
    · rcases hq : splitNl cs with _ | ⟨p, ps⟩
      · exact splitNl_ne_nil cs hq
      · rw [hq] at h
        injection h with h1 h2
        exact List.noConfusion h1

theorem rustLines_ne_nil {l : List Char} (h : l ≠ []) : rustLines l ≠ [] := by
  rcases hs : splitNl l with _ | ⟨x, xs⟩
  · exact absurd hs (splitNl_ne_nil l)
  · rcases xs with _ | ⟨y, ys⟩
    · by_cases hx : x = []
      · subst hx
        exact absurd (splitNl_eq_singleton hs) h
      · unfold rustLines
        rw [hs]
        rw [show (([x] : List (List Char)).getLastD []) = x from rfl]
        rw [if_neg hx]
        simp
    · unfold rustLines
      rw [hs]
      split
      · rw [show (x :: y :: ys).dropLast = x :: (y :: ys).dropLast from rfl]
        simp
      · simp

theorem joinDocs_map_text_ne_nil {α : Type} (f : α → String) :
    ∀ (l : List α), l ≠ [] →
      joinDocs Doc.hardline (l.map fun x => Doc.text (f x)) ≠ Doc.nil := by
  intro l
  induction l with
  | nil => intro h; exact absurd rfl h
  | cons x xs ih =>
    intro _
    rcases xs with _ | ⟨y, ys⟩
    · exact fun h => Doc.noConfusion h
    · exact fun h => Doc.noConfusion h

theorem to_doc_ne_nil {s : String} (h : s ≠ "") (strip : StripMode) :
    to_doc s strip ≠ Doc.nil := by
  have hd : s.data ≠ [] := by
    intro hc
    apply h
    rcases s with ⟨data⟩
    simp only at hc
    rw [hc]
  have hlines := rustLines_ne_nil hd
  unfold to_doc
  dsimp only
  split
  · exact fun hc => Doc.noConfusion hc
  · refine joinDocs_map_text_ne_nil _ (rustLines s.data).enum ?_
    intro hc
    have := congrArg List.length hc
    rw [List.enum_length] at this
    rcases hl : rustLines s.data with _ | ⟨a, as⟩
    · exact hlines hl
    · rw [hl] at this
      simp at this

theorem convert_comment_ne_nil {n : SyntaxNode} (h : n.text ≠ "") :
    convert_comment n ≠ Doc.nil :=
  to_doc_ne_nil h _

theorem loopRuns (cfg : Config) (attrs : Attrs) :
    ∀ (nodes : List SyntaxNode) (codes : List Doc) (canAttach afterNl : Bool),
    spacedSepGo afterNl nodes = true →
    nilRunBelow cfg.blank_lines_upper_bound codes 0 = true →
    endRunFrom codes 0 ≤ cfg.blank_lines_upper_bound →
    (afterNl = false → endRunFrom codes 0 = 0) →
    nilRunBelow cfg.blank_lines_upper_bound
      (convertCodeLoop cfg attrs nodes codes canAttach) 0 = true := by
  intro nodes
  induction nodes with
  | nil =>
    intro codes _ _ _ h2 _ _
    rw [convertCodeLoop]
    exact h2
  | cons n rest ih =>
    intro codes canAttach afterNl h1 h2 h3 h4
    rw [convertCodeLoop]
    rw [spacedSepGo] at h1
    by_cases he : isExprNode n = true
    · rw [if_pos he] at h1 ⊢
      refine ih _ true false h1 ?_ ?_ ?_
      · rw [nilRunBelow_append, h2, Bool.true_and]
        exact nilRunBelow_singleton (convert_expr_ne_nil cfg attrs n)
      · rw [endRunFrom_append, endRunFrom_singleton (convert_expr_ne_nil cfg attrs n)]
        omega
      · intro _
        rw [endRunFrom_append, endRunFrom_singleton (convert_expr_ne_nil cfg attrs n)]
    · rw [if_neg he] at h1 ⊢
      by_cases hcm : isCommentKind n.kind = true
      · rw [if_pos hcm] at h1 ⊢
        rw [Bool.and_eq_true] at h1
        rcases h1 with ⟨htext, hrest⟩
        rw [decide_eq_true_eq] at htext
        have hcne := convert_comment_ne_nil htext
        have hstep : ∀ codes' : List Doc,
            nilRunBelow cfg.blank_lines_upper_bound codes' 0 = true →
            endRunFrom codes' 0 = 0 →
            nilRunBelow cfg.blank_lines_upper_bound
              (convertCodeLoop cfg attrs rest codes' false) 0 = true := by
          intro codes' hr1 hr2
          refine ih codes' false false hrest hr1 ?_ ?_
          · omega
          · intro _; exact hr2
        by_cases hca : canAttach = true
        · rw [if_pos hca]
          rcases hlast : codes.getLast? with _ | last
          · -- unreachable branch kept total: push the comment
            apply hstep
            · rw [nilRunBelow_append, h2, Bool.true_and]
              exact nilRunBelow_singleton hcne
            · rw [endRunFrom_append, endRunFrom_singleton hcne]
          · -- attach to the last document, which becomes a concat
            have hne : codes ≠ [] := by
              intro hc
              rw [hc] at hlast
              simp at hlast
            have hsplitc : codes = codes.dropLast ++ [codes.getLast hne] :=
              (List.dropLast_append_getLast hne).symm
            have hpre : nilRunBelow cfg.blank_lines_upper_bound codes.dropLast 0 = true := by
              rw [hsplitc, nilRunBelow_append, Bool.and_eq_true] at h2
              exact h2.1
            apply hstep
            · rw [nilRunBelow_append, hpre, Bool.true_and]
              exact nilRunBelow_singleton (fun hcon => Doc.noConfusion hcon)
            · rw [endRunFrom_append,
                endRunFrom_singleton (fun hcon => Doc.noConfusion (hcon : _ = Doc.nil))]
        · rw [if_neg hca]
          apply hstep
          · rw [nilRunBelow_append, h2, Bool.true_and]
            exact nilRunBelow_singleton hcne
          · rw [endRunFrom_append, endRunFrom_singleton hcne]
      · rw [if_neg hcm] at h1 ⊢
        by_cases hsp : (n.kind == SyntaxKind.space) = true
        · by_cases hcnt : countChar n.text '\n' > 0
          · have hcond : (n.kind == SyntaxKind.space && countChar n.text '\n' > 0) = true := by
              rw [Bool.and_eq_true, hsp]
              exact ⟨rfl, decide_eq_true hcnt⟩
            rw [if_pos hcond] at h1
            rw [Bool.and_eq_true] at h1
            rcases h1 with ⟨hafter, hrest⟩
            have hanl : afterNl = false := by
              rcases afterNl with _ | _
              · rfl
              · simp at hafter
            have hzero : endRunFrom codes 0 = 0 := h4 hanl
            rw [if_pos hsp]
            dsimp only
            rw [if_pos hcnt]
            by_cases hemp : codes.isEmpty = true
            · rw [if_pos hemp]
              refine ih codes false true hrest h2 h3 ?_
              intro hc
              exact absurd hc (by simp)
            · rw [if_neg hemp]
              refine ih _ false true hrest ?_ ?_ ?_
              · rw [nilRunBelow_append, h2, Bool.true_and]
                refine nilRunBelow_replicate _ _ _ ?_
                rw [hzero]
                omega
              · rw [endRunFrom_append, hzero, endRunFrom_replicate]
                omega
              · intro hc
                exact absurd hc (by simp)
          · have hcond : (n.kind == SyntaxKind.space && countChar n.text '\n' > 0) = false := by
              rw [decide_eq_false hcnt, Bool.and_false]
            rw [if_neg (by rw [hcond]; exact Bool.false_ne_true)] at h1
            rw [if_pos hsp]
            dsimp only
            rw [if_neg hcnt]
            exact ih codes canAttach afterNl h1 h2 h3 h4
        · have hcond : (n.kind == SyntaxKind.space && countChar n.text '\n' > 0) = false := by
            rw [Bool.eq_false_iff.2 hsp, Bool.false_and]
          rw [if_neg (by rw [hcond]; exact Bool.false_ne_true)] at h1
          rw [if_neg hsp]
          exact ih codes canAttach afterNl h1 h2 h3 h4

/-- Claim C8 (amended): in code blocks, for every well-spaced code-node
list every run of consecutive blank items emitted by `convert_code` has
length at most the configured `blank_lines_upper_bound`; markup paragraph
breaks, in contrast, are not clamped — `convert_parbreak` emits one hard
line break per source newline, ignoring the configuration. -/
theorem thm_C8 (cfg : Config) (attrs : Attrs) (nodes : List SyntaxNode)
    (h : spacedSepGo false (stripTrailSpaces nodes) = true) :
    nilRunBelow cfg.blank_lines_upper_bound (convert_code cfg attrs nodes) 0 = true ∧
    ∀ pb : SyntaxNode,
      convert_parbreak pb = Doc.repeatN Doc.hardline (countChar pb.text '\n') := by
  refine ⟨?_, fun pb => rfl⟩
  rw [convert_code]
  refine loopRuns cfg attrs _ [] false false h rfl ?_ ?_
  · show (0 : Nat) ≤ cfg.blank_lines_upper_bound
    omega
  · intro _
    rfl

/-- Claim C8 counterexample: a markup paragraph break carrying three blank
source lines (four newlines) converts, under blank-line bound 1, to four
hard line breaks — three blank lines, not at most one. -/
theorem cex_C8 :
    countHardlines (convert_parbreak (SyntaxNode.mk SyntaxKind.parbreak "\n\n\n\n" [])) = 4 ∧
    cfgB1.blank_lines_upper_bound + 1 < 4 := by
  constructor <;> decide

/-- Claim C8 witness: the code-block bound evaluated on a concrete
code-node list whose space carries three blank source lines; the clamping
branch fires and emits exactly one blank item under bound 1. -/
theorem thm_C8_w :
    nilRunBelow cfgB1.blank_lines_upper_bound
      (convert_code cfgB1 attrsNone exCodeNodes) 0 = true ∧
    convert_code cfgB1 attrsNone exCodeNodes =
      [Doc.group (Doc.text "a"), Doc.nil, Doc.group (Doc.text "b")] := by
  refine ⟨(thm_C8 cfgB1 attrsNone exCodeNodes (by decide)).1, ?_⟩
  have h4 : countChar "\n\n\n\n" '\n' = 4 := by decide
  simp [convert_code, convertCodeLoop, stripTrailSpaces, convert_expr, attrsNone,
    exCodeNodes, isExprNode, isExprKind, isCommentKind, h4, cfgB1, List.replicate]

end Geshihua
